import Mathlib

/-!
Shallow embedding of `scripts/fix-test-waits.py`: the pattern-based rewrite
engine `fix_file` (five ordered regex substitution rules over the text of one
test file) and the driver's pre-filter from `main`.  Text is modelled as
`List Char`.  Python's `re` character classes `\w`, `\s`, `\d` are modelled
over ASCII, which covers every character the patterns and claims involve.

Each regex is embedded as a hand-compiled matcher.  The matchers return a
three-valued result (`PRes`): definite failure, "ran out of input" (so a
longer input could still match), or success with the replacement text and the
rest of the input.  Backtracking was resolved statically: every greedy
run (`\w+`, `\d+`, `\s+`, `[^)]+`) in these patterns is followed by a
character that the run's class rejects, so the maximal run is the only
candidate; the one lazy hole (`.*?` in rule 3, DOTALL) and the `\s*\n(\s+)`
split in rule 4 are compiled to explicit search loops with the same
preference order as the Python engine (shortest lazy skip first; for rule 4
the greedy `\s*` takes the last newline of the whitespace run that leaves a
nonempty `\s+`).
-/

namespace FixWaits

/-- ASCII model of Python's regex class `\w`. -/
def isWordC (c : Char) : Bool := c.isAlpha || c.isDigit || c == '_'

/-- ASCII model of Python's regex class `\s` (also used for `str.strip`). -/
def isSpaceC (c : Char) : Bool :=
  c == ' ' || c == '\t' || c == '\n' || c == '\r' || c == '\x0b' || c == '\x0c'

/-- ASCII model of Python's regex class `\d`. -/
def isDigitC (c : Char) : Bool := c.isDigit

/-- Maximal run of characters satisfying `p`, plus the rest. -/
def takeRun (p : Char → Bool) : List Char → List Char × List Char
  | [] => ([], [])
  | c :: cs =>
    if p c then
      let r := takeRun p cs
      (c :: r.1, r.2)
    else ([], c :: cs)

/-- Does `s` start with `pat`? -/
def startsWithL : List Char → List Char → Bool
  | _, [] => true
  | [], _ :: _ => false
  | c :: cs, d :: ds => c == d && startsWithL cs ds

/-- Python's substring test `pat in s`. -/
def containsSub : List Char → List Char → Bool
  | [], pat => startsWithL [] pat
  | c :: cs, pat => startsWithL (c :: cs) pat || containsSub cs pat

/-- Three-valued matcher result: definite failure (stable under appending
more input), out-of-input (a longer input could behave differently), or
success with a value and the unconsumed rest. -/
inductive PRes (α : Type) where
  | fail : PRes α
  | more : PRes α
  | done : α → List Char → PRes α

def PRes.isFail {α : Type} : PRes α → Bool
  | .fail => true
  | _ => false

/-- Match a literal string. -/
def pLit : List Char → List Char → PRes Unit
  | [], s => .done () s
  | _ :: _, [] => .more
  | l :: ls, c :: cs => if c == l then pLit ls cs else .fail

/-- Match a single character satisfying `p`. -/
def pChar (p : Char → Bool) : List Char → PRes Char
  | [] => .more
  | c :: cs => if p c then .done c cs else .fail

/-- Match a maximal nonempty run of characters satisfying `p`.  The run must
be closed off by a following character, otherwise more input could extend
it. -/
def pTake1 (p : Char → Bool) (s : List Char) : PRes (List Char) :=
  match takeRun p s with
  | ([], []) => .more
  | ([], _ :: _) => .fail
  | (_ :: _, []) => .more
  | (run, rest) => .done run rest

def pbind {α β : Type} (P : List Char → PRes α) (k : α → List Char → PRes β)
    (s : List Char) : PRes β :=
  match P s with
  | .fail => .fail
  | .more => .more
  | .done v r => k v r

def ppure {α : Type} (v : α) (s : List Char) : PRes α := .done v s

/-- Collapse a three-valued matcher to the option a finite input decides. -/
def pOpt {α : Type} (P : List Char → PRes α) (s : List Char) :
    Option (α × List Char) :=
  match P s with
  | .done v r => some (v, r)
  | _ => none

def awaitL : List Char := "await ".toList
def wflsL : List Char := ".waitForLoadState(".toList
def networkidleL : List Char := "networkidle".toList
def closeParenL : List Char := ")".toList
def gotoOpenL : List Char := ".goto(".toList
def commaBraceL : List Char := ", \x7b".toList
def cmtL : List Char := "// Wait for iframe to load".toList
def clickL : List Char := ".click()".toList
def wftL : List Char := ".waitForTimeout(".toList
def wftTrigger : List Char := "waitForTimeout".toList
def nidTrigger : List Char := "networkidle".toList
def todoL : List Char := "TODO".toList

def isQuoteC (c : Char) : Bool := c == '\'' || c == '"'

/-- Replacement template of rule 1. -/
def repl1 (w : List Char) : List Char :=
  "await ".toList ++ w ++ ".waitForSelector('body', \x7b timeout: 5000 \x7d)".toList

/-- Rule 1 pattern `await (\w+)\.waitForLoadState\(['\"]networkidle['\"]\)`.
The quote class is matched independently at each side, as in the source. -/
def p1 : List Char → PRes (List Char) :=
  pbind (pLit awaitL) (fun _ =>
  pbind (pTake1 isWordC) (fun w =>
  pbind (pLit wflsL) (fun _ =>
  pbind (pChar isQuoteC) (fun _ =>
  pbind (pLit networkidleL) (fun _ =>
  pbind (pChar isQuoteC) (fun _ =>
  pbind (pLit closeParenL) (fun _ =>
  ppure (repl1 w))))))))

/-- Rule 2 search pattern `await (\w+)\.goto\(([^)]+)\)`, returning both
capture groups. -/
def pGoto : List Char → PRes (List Char × List Char) :=
  pbind (pLit awaitL) (fun _ =>
  pbind (pTake1 isWordC) (fun g1 =>
  pbind (pLit gotoOpenL) (fun _ =>
  pbind (pTake1 (fun c => !(c == ')'))) (fun g2 =>
  pbind (pLit closeParenL) (fun _ =>
  ppure (g1, g2))))))

/-- Replacement template of rule 2's `re.sub`.  The source writes it as a raw
single-quoted Python string containing `\'`, so a literal backslash is
inserted before each quote around `domcontentloaded`. -/
def replGoto (g1 g2 : List Char) : List Char :=
  "await ".toList ++ g1 ++ ".goto(".toList ++ g2 ++
    ", \x7b waitUntil: \\'domcontentloaded\\', timeout: 10000 \x7d)".toList

def mGoto (s : List Char) : Option (List Char × List Char) :=
  match pOpt pGoto s with
  | some ((g1, g2), r) => some (replGoto g1 g2, r)
  | none => none

/-- Leftmost `re.search` for rule 2's pattern, returning capture group 2. -/
def searchGoto : List Char → Option (List Char)
  | [] =>
    match pOpt pGoto [] with
    | some (g, _) => some g.2
    | none => none
  | c :: cs =>
    match pOpt pGoto (c :: cs) with
    | some (g, _) => some g.2
    | none => searchGoto cs

/-- Replacement template of rule 3. -/
def repl3 (g1 g2 : List Char) : List Char :=
  g1 ++ "await ".toList ++ g2 ++
    ".waitForSelector('#absmartly-sidebar-iframe', \x7b state: 'attached', timeout: 5000 \x7d).catch(() => \x7b\x7d)".toList

/-- Tail of rule 3 after the lazy gap: `\n\s+await (\w+)\.waitForTimeout\(\d+\)`.
Returns the text consumed by `\n\s+` (part of capture group 1) and the
receiver. -/
def pAttempt3 : List Char → PRes (List Char × List Char) :=
  pbind (pChar (fun c => c == '\n')) (fun nl =>
  pbind (pTake1 isSpaceC) (fun ws =>
  pbind (pLit awaitL) (fun _ =>
  pbind (pTake1 isWordC) (fun g2 =>
  pbind (pLit wftL) (fun _ =>
  pbind (pTake1 isDigitC) (fun _d =>
  pbind (pLit closeParenL) (fun _ =>
  ppure (nl :: ws, g2))))))))

/-- Lazy `.*?` of rule 3 under DOTALL: try the continuation at the current
position first, else skip one character (of any kind) and retry.  If the
input ends, a longer input could still produce a match. -/
def pLazy3 : List Char → PRes (List Char × List Char)
  | [] =>
    match pAttempt3 [] with
    | .done v r => .done v r
    | _ => .more
  | c :: cs =>
    match pAttempt3 (c :: cs) with
    | .done v r => .done v r
    | .more => .more
    | .fail =>
      match pLazy3 cs with
      | .done v r => .done (c :: v.1, v.2) r
      | .more => .more
      | .fail => .fail

/-- Rule 3 pattern `(// Wait for iframe to load.*?\n\s+)await (\w+)\.waitForTimeout\(\d+\)`
with `re.DOTALL`. -/
def p3 : List Char → PRes (List Char) :=
  pbind (pLit cmtL) (fun _ =>
  pbind pLazy3 (fun gg =>
  ppure (repl3 (cmtL ++ gg.1) gg.2)))

/-- Rightmost newline of a whitespace run that leaves a nonempty suffix:
the split the greedy `\s*\n(\s+)` of rule 4 settles on.  Returns capture
group 2 (the suffix after that newline). -/
def lastNlSplit : List Char → Option (List Char)
  | [] => none
  | c :: cs =>
    match lastNlSplit cs with
    | some g2 => some g2
    | none =>
      match cs with
      | [] => none
      | _ :: _ => if c == '\n' then some cs else none

/-- The `\s*\n(\s+)` part of rule 4: consume the maximal whitespace run and
split it at its last usable newline. -/
def pW4 (s : List Char) : PRes (List Char) :=
  match (takeRun isSpaceC s).2 with
  | [] => .more
  | _ :: _ =>
    match lastNlSplit (takeRun isSpaceC s).1 with
    | some g2 => .done g2 (takeRun isSpaceC s).2
    | none => .fail

/-- Replacement template of rule 4. -/
def repl4 (g1 g2 g3 : List Char) : List Char :=
  "await ".toList ++ g1 ++ ".click()\n".toList ++ g2 ++
    "// Wait briefly for UI update\n".toList ++ g2 ++ "await ".toList ++ g3 ++
    ".waitForLoadState('domcontentloaded', \x7b timeout: 2000 \x7d).catch(() => \x7b\x7d)".toList

/-- Rule 4 pattern
`await (\w+)\.click\(\)\s*\n(\s+)await (\w+)\.waitForTimeout\(\d+\)`. -/
def p4 : List Char → PRes (List Char) :=
  pbind (pLit awaitL) (fun _ =>
  pbind (pTake1 isWordC) (fun g1 =>
  pbind (pLit clickL) (fun _ =>
  pbind pW4 (fun g2 =>
  pbind (pLit awaitL) (fun _ =>
  pbind (pTake1 isWordC) (fun g3 =>
  pbind (pLit wftL) (fun _ =>
  pbind (pTake1 isDigitC) (fun _d =>
  pbind (pLit closeParenL) (fun _ =>
  ppure (repl4 g1 g2 g3))))))))))

/-- Replacement template of rule 5. -/
def repl5 (g1 g2 : List Char) : List Char :=
  "// TODO: Replace timeout with specific element wait\n    await ".toList ++ g1 ++
    ".waitForFunction(() => document.readyState === 'complete', \x7b timeout: ".toList ++
    g2 ++ " \x7d).catch(() => \x7b\x7d)".toList

/-- Rule 5 pattern `await (\w+)\.waitForTimeout\((\d+)\)`. -/
def p5 : List Char → PRes (List Char) :=
  pbind (pLit awaitL) (fun _ =>
  pbind (pTake1 isWordC) (fun g1 =>
  pbind (pLit wftL) (fun _ =>
  pbind (pTake1 isDigitC) (fun g2 =>
  pbind (pLit closeParenL) (fun _ =>
  ppure (repl5 g1 g2))))))

/-- Fuelled `re.subn` scan: at each position try the matcher; on success emit
the replacement and continue after the match, else copy one character.  All
five patterns match at least one character, so fuel `s.length` is exact. -/
def subnF (m : List Char → Option (List Char × List Char)) :
    Nat → List Char → List Char × Nat
  | 0, s => (s, 0)
  | Nat.succ f, s =>
    match m s with
    | some (r, rest) =>
      let p := subnF m f rest
      (r ++ p.1, p.2 + 1)
    | none =>
      match s with
      | [] => ([], 0)
      | c :: cs =>
        let p := subnF m f cs
        (c :: p.1, p.2)

def subn (m : List Char → Option (List Char × List Char)) (s : List Char) :
    List Char × Nat :=
  subnF m s.length s

/-- Fix 1 of `fix_file`. -/
def fix1 (s : List Char) : List Char × Nat := subn (pOpt p1) s

/-- Python `line.strip().endswith(',')`. -/
def endsCommaStripped (line : List Char) : Bool :=
  match List.dropWhile isSpaceC line.reverse with
  | [] => false
  | c :: _ => c == ','

/-- The `if` guard of fix 2's per-line loop. -/
def lineGuard (line : List Char) : Bool :=
  containsSub line awaitL && containsSub line gotoOpenL &&
    !containsSub line commaBraceL && !endsCommaStripped line

/-- Python `re.sub` over one line with rule 2's pattern (replaces every
match on the line). -/
def subAllGoto (line : List Char) : List Char := (subn mGoto line).1

/-- One iteration of fix 2's per-line loop: the guard, the `re.search`, the
comma test on capture group 2 of the first match, then `re.sub` and a change
count of one for the whole line. -/
def fix2Line (line : List Char) : List Char × Nat :=
  if lineGuard line then
    match searchGoto line with
    | some g2 => if g2.count ',' == 0 then (subAllGoto line, 1) else (line, 0)
    | none => (line, 0)
  else (line, 0)

/-- Python `content.split('\n')`. -/
def splitNl : List Char → List (List Char)
  | [] => [[]]
  | c :: cs =>
    match splitNl cs with
    | [] => [[c]]
    | l :: ls => if c == '\n' then [] :: l :: ls else (c :: l) :: ls

/-- Python `'\n'.join(lines)`. -/
def joinNl : List (List Char) → List Char
  | [] => []
  | [l] => l
  | l :: ls => l ++ '\n' :: joinNl ls

def processLines : List (List Char) → List (List Char) × Nat
  | [] => ([], 0)
  | l :: ls =>
    let r := fix2Line l
    let rs := processLines ls
    (r.1 :: rs.1, r.2 + rs.2)

/-- Fix 2 of `fix_file`: the line-oriented goto rewrite.  The whole-text
pattern assigned just above it in the source is dead code (overwritten
before any use), so only the per-line loop is embedded. -/
def fix2 (s : List Char) : List Char × Nat :=
  let r := processLines (splitNl s)
  (joinNl r.1, r.2)

/-- Fix 3 of `fix_file`. -/
def fix3 (s : List Char) : List Char × Nat := subn (pOpt p3) s

/-- Fix 4 of `fix_file`. -/
def fix4 (s : List Char) : List Char × Nat := subn (pOpt p4) s

/-- Fix 5 of `fix_file`. -/
def fix5 (s : List Char) : List Char × Nat := subn (pOpt p5) s

/-- The five fixes in source order, with the accumulated change count. -/
def applyRules (s : List Char) : List Char × Nat :=
  let r1 := fix1 s
  let r2 := fix2 r1.1
  let r3 := fix3 r2.1
  let r4 := fix4 r3.1
  let r5 := fix5 r4.1
  (r5.1, r1.2 + r2.2 + r3.2 + r4.2 + r5.2)

/-- Pure core of `fix_file`: the transformed text plus the count the function
returns (the accumulated count when the text changed, else zero — the source
returns `changes` only under `content != original`). -/
def fix_file (s : List Char) : List Char × Nat :=
  let r := applyRules s
  if r.1 = s then (s, 0) else r

/-- Decision of `main`'s pre-filter on one candidate file, embedded with the
source's two consecutive `f.read()` calls on the same handle: the first
returns the content, the second reads from end-of-file and returns the empty
string, so its `networkidle` test runs on `""`. -/
def driverSkips (content : List Char) : Bool :=
  !containsSub content wftTrigger && !containsSub ([] : List Char) nidTrigger

/-- Does the scan of `re.subn` find a match anywhere in `s`? -/
def hasMatchB {α : Type} (m : List Char → Option (α × List Char)) :
    List Char → Bool
  | [] => (m []).isSome
  | c :: cs => (m (c :: cs)).isSome || hasMatchB m cs

/-- Does fix 2's loop fire on this line? -/
def lineFires (line : List Char) : Bool :=
  lineGuard line &&
    (match searchGoto line with
     | some g2 => g2.count ',' == 0
     | none => false)

/-- No rule of the engine finds anything to rewrite in `s`: none of the four
whole-text patterns matches anywhere, and no line passes fix 2's guard with a
comma-free first capture.  This is the formal reading of "contains none of
the five trigger shapes". -/
def noTrigger (s : List Char) : Bool :=
  !hasMatchB (pOpt p1) s && (splitNl s).all (fun l => !lineFires l) &&
    !hasMatchB (pOpt p3) s && !hasMatchB (pOpt p4) s && !hasMatchB (pOpt p5) s

/-- A matcher is stable when a definite failure stays a failure on any longer
input, and a success keeps the same value with the extension appended to the
rest.  This is what makes `PRes.fail` and `PRes.done` meaningful on a prefix
of a larger text. -/
def StableP {α : Type} (P : List Char → PRes α) : Prop :=
  (∀ s b, P s = .fail → P (s ++ b) = .fail) ∧
    (∀ s v r b, P s = .done v r → P (s ++ b) = .done v (r ++ b))

/-- A matcher never produces a rest longer than its input. -/
def LeP {α : Type} (P : List Char → PRes α) : Prop :=
  ∀ s v r, P s = .done v r → r.length ≤ s.length

/-- A matcher in `Option` form always consumes at least one character. -/
def Consumes (m : List Char → Option (List Char × List Char)) : Prop :=
  ∀ s v r, m s = some (v, r) → r.length < s.length

/-- A fixed-duration wait in rule 4's context: right after a click on the
previous line. -/
def clickCtx : List Char :=
  "await button.click()\n  await page.waitForTimeout(300)".toList

/-- What rule 4 turns `clickCtx` into. -/
def clickRepl : List Char := repl4 "button".toList "  ".toList "page".toList

/-- A fixed-duration wait in rule 3's context: right after the iframe
comment. -/
def cmtCtx : List Char :=
  "// Wait for iframe to load\n  await page.waitForTimeout(500)".toList

/-- What rule 3 turns `cmtCtx` into. -/
def cmtRepl : List Char :=
  repl3 "// Wait for iframe to load\n  ".toList "page".toList

theorem startsWithL_iff (s p : List Char) : startsWithL s p = true ↔ p <+: s := by
  induction s generalizing p with
  | nil =>
    cases p with
    | nil => exact ⟨fun _ => List.prefix_refl _, fun _ => rfl⟩
    | cons d ds =>
      constructor
      · intro h
        exact absurd h (by simp [startsWithL])
      · intro h
        have := h.length_le
        simp at this
  | cons c cs ih =>
    cases p with
    | nil => exact ⟨fun _ => List.nil_prefix, fun _ => rfl⟩
    | cons d ds =>
      simp only [startsWithL, Bool.and_eq_true, beq_iff_eq, List.cons_prefix_cons,
        ih]
      constructor
      · rintro ⟨h1, h2⟩; exact ⟨h1.symm, h2⟩
      · rintro ⟨h1, h2⟩; exact ⟨h1.symm, h2⟩

theorem sw_append_ext (x y p : List Char) (h : startsWithL x p = true) :
    startsWithL (x ++ y) p = true := by
  rw [startsWithL_iff] at h ⊢
  exact h.trans (List.prefix_append x y)

theorem startsWithL_nil_pat (s : List Char) : startsWithL s [] = true := by
  cases s <;> rfl

theorem sw_append_long (x y p : List Char) (h : p.length ≤ x.length) :
    startsWithL (x ++ y) p = startsWithL x p := by
  induction x generalizing p with
  | nil =>
    cases p with
    | nil => rw [startsWithL_nil_pat, startsWithL_nil_pat]
    | cons d ds => simp at h
  | cons c cs ih =>
    cases p with
    | nil => rw [startsWithL_nil_pat, startsWithL_nil_pat]
    | cons d ds =>
      simp only [List.cons_append, startsWithL, List.append_eq]
      rw [ih ds (by simpa using h)]

theorem sw_append_short (x y p : List Char) (h : x.length < p.length)
    (hs : startsWithL (x ++ y) p = true) :
    startsWithL y (List.drop x.length p) = true := by
  induction x generalizing p with
  | nil => simpa using hs
  | cons c cs ih =>
    cases p with
    | nil => simp at h
    | cons d ds =>
      simp only [List.cons_append, startsWithL, Bool.and_eq_true] at hs
      simpa using ih ds (by simpa using h) hs.2

theorem prefix_of_prefix_sw (y a b : List Char) (ha : startsWithL y a = true)
    (hb : startsWithL y b = true) (h : a.length ≤ b.length) :
    startsWithL b a = true := by
  rw [startsWithL_iff] at ha hb ⊢
  exact List.prefix_of_prefix_length_le ha hb h

theorem sw_head (c : Char) (t : List Char) (k : Char) (ks : List Char)
    (h : startsWithL (c :: t) (k :: ks) = true) : c = k := by
  simp only [startsWithL, Bool.and_eq_true, beq_iff_eq] at h
  exact h.1

theorem containsSub_iff_exists (s p : List Char) :
    containsSub s p = true ↔ ∃ i, startsWithL (List.drop i s) p = true := by
  induction s with
  | nil =>
    constructor
    · intro h; exact ⟨0, h⟩
    · rintro ⟨i, h⟩; simpa using h
  | cons c cs ih =>
    simp only [containsSub, Bool.or_eq_true, ih]
    constructor
    · rintro (h | ⟨i, h⟩)
      · exact ⟨0, h⟩
      · exact ⟨i + 1, h⟩
    · rintro ⟨i, h⟩
      cases i with
      | zero => exact Or.inl h
      | succ j => exact Or.inr ⟨j, h⟩

theorem containsSub_of_sw_drop (s p : List Char) (i : Nat)
    (h : startsWithL (List.drop i s) p = true) : containsSub s p = true :=
  (containsSub_iff_exists s p).mpr ⟨i, h⟩

theorem containsSub_infix_iff (s p : List Char) :
    containsSub s p = true ↔ p <:+: s := by
  induction s with
  | nil =>
    cases p with
    | nil => simp [containsSub, startsWithL]
    | cons d ds => simp [containsSub, startsWithL]
  | cons c cs ih =>
    simp only [containsSub, Bool.or_eq_true, ih, startsWithL_iff,
      List.infix_cons_iff]

theorem containsSub_infix_mono (l s p : List Char) (h : containsSub l p = true)
    (hl : l <:+: s) : containsSub s p = true :=
  (containsSub_infix_iff s p).mpr (((containsSub_infix_iff l p).mp h).trans hl)

theorem containsSub_pat_mono (s p q : List Char) (hp : p <+: q)
    (h : containsSub s q = true) : containsSub s p = true :=
  (containsSub_infix_iff s p).mpr
    (hp.isInfix.trans ((containsSub_infix_iff s q).mp h))

theorem containsSub_append_left (a b p : List Char)
    (h : containsSub a p = true) : containsSub (a ++ b) p = true :=
  containsSub_infix_mono a (a ++ b) p h ⟨[], b, by simp⟩

theorem splitNl_ne_nil (s : List Char) : splitNl s ≠ [] := by
  induction s with
  | nil => simp [splitNl]
  | cons c cs ih =>
    simp only [splitNl]
    cases h : splitNl cs with
    | nil => exact absurd h ih
    | cons l ls =>
      by_cases hc : c == '\n' <;> simp [hc]

theorem joinNl_cons_head (c : Char) (l : List Char) (ls : List (List Char)) :
    joinNl ((c :: l) :: ls) = c :: joinNl (l :: ls) := by
  cases ls <;> simp [joinNl]

theorem splitNl_join (s : List Char) : joinNl (splitNl s) = s := by
  induction s with
  | nil => simp [splitNl, joinNl]
  | cons c cs ih =>
    simp only [splitNl]
    cases h : splitNl cs with
    | nil => exact absurd h (splitNl_ne_nil cs)
    | cons l ls =>
      rw [h] at ih
      by_cases hc : c == '\n'
      · have hc' : c = '\n' := by simpa using hc
        simp [hc, joinNl, ih, hc']
      · simp only [hc, if_false, Bool.false_eq_true]
        rw [joinNl_cons_head, ih]

theorem splitNl_strong (s : List Char) :
    ∃ l0 ls, splitNl s = l0 :: ls ∧ l0 <+: s ∧ ∀ l ∈ ls, l <:+: s := by
  induction s with
  | nil => exact ⟨[], [], rfl, List.nil_prefix, by simp⟩
  | cons c cs ih =>
    obtain ⟨l0, ls, h, hpfx, hmem⟩ := ih
    by_cases hc : c == '\n'
    · refine ⟨[], l0 :: ls, ?_, List.nil_prefix, ?_⟩
      · simp [splitNl, h, hc]
      · intro l hl
        rcases List.mem_cons.mp hl with rfl | hl
        · exact List.infix_cons (hpfx.isInfix)
        · exact List.infix_cons (hmem l hl)
    · refine ⟨c :: l0, ls, ?_, ?_, ?_⟩
      · simp [splitNl, h, hc]
      · exact (List.cons_prefix_cons).mpr ⟨rfl, hpfx⟩
      · intro l hl
        exact List.infix_cons (hmem l hl)

theorem mem_splitNl_inf (s l : List Char) (h : l ∈ splitNl s) : l <:+: s := by
  obtain ⟨l0, ls, hs, hpfx, hmem⟩ := splitNl_strong s
  rw [hs] at h
  rcases List.mem_cons.mp h with rfl | h
  · exact hpfx.isInfix
  · exact hmem l h

theorem splitNl_single (s : List Char) (h : ∀ c ∈ s, (c == '\n') = false) :
    splitNl s = [s] := by
  induction s with
  | nil => rfl
  | cons c cs ih =>
    have hcs : splitNl cs = [cs] := ih (fun d hd => h d (List.mem_cons_of_mem c hd))
    simp [splitNl, hcs, h c (List.mem_cons_self c cs)]

theorem takeRun_eq_append (p : Char → Bool) (s : List Char) :
    s = (takeRun p s).1 ++ (takeRun p s).2 := by
  induction s with
  | nil => rfl
  | cons c cs ih =>
    by_cases hc : p c
    · simp only [takeRun, hc, if_true]
      exact congrArg (c :: ·) ih
    · simp [takeRun, hc]

theorem takeRun_mem (p : Char → Bool) (s : List Char) :
    ∀ c ∈ (takeRun p s).1, p c = true := by
  induction s with
  | nil => intro c hc; simp [takeRun] at hc
  | cons c cs ih =>
    by_cases hc : p c
    · simp only [takeRun, hc, if_true]
      intro d hd
      rcases List.mem_cons.mp hd with rfl | hd
      · exact hc
      · exact ih d hd
    · simp [takeRun, hc]

theorem takeRun_run_nil (p : Char → Bool) (s : List Char) (c : Char)
    (r : List Char) (h : takeRun p s = ([], c :: r)) :
    s = c :: r ∧ p c = false := by
  cases s with
  | nil => simp [takeRun] at h
  | cons d ds =>
    by_cases hd : p d
    · simp [takeRun, hd] at h
    · simp only [takeRun, hd, if_false, Bool.false_eq_true, Prod.mk.injEq] at h
      obtain ⟨-, h2⟩ := h
      cases h2
      exact ⟨rfl, by simpa using hd⟩

theorem takeRun_append_stop (p : Char → Bool) (s b : List Char)
    (run : List Char) (c : Char) (r : List Char)
    (h : takeRun p s = (run, c :: r)) :
    takeRun p (s ++ b) = (run, c :: (r ++ b)) := by
  induction s generalizing run with
  | nil => simp [takeRun] at h
  | cons d ds ih =>
    by_cases hd : p d
    · simp only [takeRun, hd, if_true, Prod.mk.injEq] at h
      obtain ⟨h1, h2⟩ := h
      have h3 := ih (takeRun p ds).1 (by rw [← h2])
      simp only [List.cons_append, takeRun, hd, if_true, List.append_eq, h3, ← h1]
    · simp only [takeRun, hd, if_false, Bool.false_eq_true, Prod.mk.injEq] at h
      obtain ⟨h1, h2⟩ := h
      cases h2
      simp [takeRun, hd, ← h1]

theorem takeRun_all_stop (p : Char → Bool) (a b : List Char) (c : Char)
    (ha : ∀ x ∈ a, p x = true) (hc : p c = false) :
    takeRun p (a ++ c :: b) = (a, c :: b) := by
  induction a with
  | nil => simp [takeRun, hc]
  | cons d ds ih =>
    have hd : p d = true := ha d (List.mem_cons_self d ds)
    simp only [List.cons_append, takeRun, hd, if_true, List.append_eq]
    rw [ih (fun x hx => ha x (List.mem_cons_of_mem d hx))]

theorem pOpt_eq_some {α : Type} (P : List Char → PRes α) (s : List Char)
    (v : α) (r : List Char) : pOpt P s = some (v, r) ↔ P s = .done v r := by
  unfold pOpt
  cases P s <;> simp

theorem pOpt_eq_none {α : Type} (P : List Char → PRes α) (s : List Char)
    (h : (P s).isFail = true) : pOpt P s = none := by
  unfold pOpt
  cases hp : P s <;> simp_all [PRes.isFail]

theorem pLit_done_len (l s : List Char) (v : Unit) (r : List Char)
    (h : pLit l s = .done v r) : s.length = l.length + r.length := by
  induction l generalizing s with
  | nil =>
    simp only [pLit] at h
    cases h
    simp
  | cons x xs ih =>
    cases s with
    | nil => simp [pLit] at h
    | cons c cs =>
      by_cases hc : c == x
      · simp only [pLit, hc, if_true] at h
        have := ih cs h
        simp [this]
        omega
      · simp [pLit, hc] at h

theorem pLit_done_sw (l s : List Char) (v : Unit) (r : List Char)
    (h : pLit l s = .done v r) : startsWithL s l = true := by
  induction l generalizing s with
  | nil => exact startsWithL_nil_pat s
  | cons x xs ih =>
    cases s with
    | nil => simp [pLit] at h
    | cons c cs =>
      by_cases hc : c == x
      · simp only [pLit, hc, if_true] at h
        simp [startsWithL, hc, ih cs h]
      · simp [pLit, hc] at h

theorem pLit_self (l t : List Char) : pLit l (l ++ t) = .done () t := by
  induction l with
  | nil => rfl
  | cons x xs ih => simp [pLit, ih]

theorem stable_pLit (l : List Char) : StableP (pLit l) := by
  constructor
  · intro s b h
    induction l generalizing s with
    | nil => simp [pLit] at h
    | cons x xs ih =>
      cases s with
      | nil => simp [pLit] at h
      | cons c cs =>
        by_cases hc : c == x
        · simp only [pLit, hc, if_true] at h ⊢
          exact ih cs h
        · simp [pLit, hc] at h ⊢
  · intro s v r b h
    induction l generalizing s with
    | nil =>
      simp only [pLit] at h ⊢
      cases h
      rfl
    | cons x xs ih =>
      cases s with
      | nil => simp [pLit] at h
      | cons c cs =>
        by_cases hc : c == x
        · simp only [pLit, hc, if_true] at h ⊢
          exact ih cs h
        · simp [pLit, hc] at h

theorem stable_pChar (p : Char → Bool) : StableP (pChar p) := by
  constructor
  · intro s b h
    cases s with
    | nil => simp [pChar] at h
    | cons c cs =>
      by_cases hc : p c
      · simp [pChar, hc] at h
      · simp [pChar, hc] at h ⊢
  · intro s v r b h
    cases s with
    | nil => simp [pChar] at h
    | cons c cs =>
      by_cases hc : p c
      · simp only [pChar, hc, if_true] at h
        cases h
        simp [pChar, List.cons_append, hc]
      · simp [pChar, hc] at h

theorem stable_ppure {α : Type} (v : α) : StableP (ppure v) := by
  constructor
  · intro s b h
    simp [ppure] at h
  · intro s w r b h
    simp only [ppure] at h ⊢
    cases h
    rfl

theorem stable_pTake1 (p : Char → Bool) : StableP (pTake1 p) := by
  constructor
  · intro s b h
    unfold pTake1 at h ⊢
    rcases htr : takeRun p s with ⟨run, rest⟩
    rw [htr] at h
    cases run with
    | cons x xs => cases rest <;> simp at h
    | nil =>
      cases rest with
      | nil => simp at h
      | cons c r =>
        rw [takeRun_append_stop p s b [] c r htr]
  · intro s v r b h
    unfold pTake1 at h ⊢
    rcases htr : takeRun p s with ⟨run, rest⟩
    rw [htr] at h
    cases run with
    | nil => cases rest <;> simp at h
    | cons x xs =>
      cases rest with
      | nil => simp at h
      | cons c r2 =>
        simp only at h
        cases h
        rw [takeRun_append_stop p s b (x :: xs) c r2 htr]
        rfl

theorem stable_pbind {α β : Type} (P : List Char → PRes α)
    (k : α → List Char → PRes β) (hP : StableP P) (hk : ∀ v, StableP (k v)) :
    StableP (pbind P k) := by
  constructor
  · intro s b h
    unfold pbind at h ⊢
    cases hps : P s with
    | fail => rw [hP.1 s b hps]
    | more => rw [hps] at h; simp at h
    | done v r =>
      rw [hps] at h
      rw [hP.2 s v r b hps]
      exact (hk v).1 r b h
  · intro s v r b h
    unfold pbind at h ⊢
    cases hps : P s with
    | fail => rw [hps] at h; simp at h
    | more => rw [hps] at h; simp at h
    | done w r1 =>
      rw [hps] at h
      rw [hP.2 s w r1 b hps]
      exact (hk w).2 r1 v r b h

theorem stable_pW4 : StableP pW4 := by
  constructor
  · intro s b h
    unfold pW4 at h ⊢
    rcases htr : takeRun isSpaceC s with ⟨W, rest⟩
    simp only [htr] at h
    cases rest with
    | nil => simp at h
    | cons c r =>
      simp only [takeRun_append_stop isSpaceC s b W c r htr]
      simp only at h ⊢
      cases hln : lastNlSplit W with
      | none => simp [hln]
      | some g2 => simp [hln] at h
  · intro s v r b h
    unfold pW4 at h ⊢
    rcases htr : takeRun isSpaceC s with ⟨W, rest⟩
    simp only [htr] at h
    cases rest with
    | nil => simp at h
    | cons c r2 =>
      simp only [takeRun_append_stop isSpaceC s b W c r2 htr]
      simp only at h ⊢
      cases hln : lastNlSplit W with
      | none => simp [hln] at h
      | some g2 =>
        simp only [hln, PRes.done.injEq] at h
        obtain ⟨rfl, rfl⟩ := h
        simp [hln]

theorem stable_pAttempt3 : StableP pAttempt3 :=
  stable_pbind _ _ (stable_pChar _) (fun _ =>
    stable_pbind _ _ (stable_pTake1 _) (fun _ =>
      stable_pbind _ _ (stable_pLit _) (fun _ =>
        stable_pbind _ _ (stable_pTake1 _) (fun _ =>
          stable_pbind _ _ (stable_pLit _) (fun _ =>
            stable_pbind _ _ (stable_pTake1 _) (fun _ =>
              stable_pbind _ _ (stable_pLit _) (fun _ => stable_ppure _)))))))

theorem pLazy3_nil : pLazy3 [] = .more := rfl

theorem pLazy3_cons (c : Char) (cs : List Char) :
    pLazy3 (c :: cs) =
      match pAttempt3 (c :: cs) with
      | .done v r => .done v r
      | .more => .more
      | .fail =>
        match pLazy3 cs with
        | .done v r => .done (c :: v.1, v.2) r
        | .more => .more
        | .fail => .fail := rfl

theorem stable_pLazy3_fail (s b : List Char) (h : pLazy3 s = .fail) :
    pLazy3 (s ++ b) = .fail := by
  induction s with
  | nil => rw [pLazy3_nil] at h; simp at h
  | cons c cs ih =>
    rw [pLazy3_cons] at h
    cases ha : pAttempt3 (c :: cs) with
    | done v r => rw [ha] at h; simp at h
    | more => rw [ha] at h; simp at h
    | fail =>
      rw [ha] at h
      simp only at h
      cases hl : pLazy3 cs with
      | done v r => rw [hl] at h; simp at h
      | more => rw [hl] at h; simp at h
      | fail =>
        rw [List.cons_append, pLazy3_cons]
        have ha2 : pAttempt3 (c :: (cs ++ b)) = .fail := by
          have := stable_pAttempt3.1 (c :: cs) b ha
          simpa using this
        rw [ha2]
        simp only
        rw [ih hl]

theorem stable_pLazy3_done (s : List Char) (v : List Char × List Char)
    (r b : List Char) (h : pLazy3 s = .done v r) :
    pLazy3 (s ++ b) = .done v (r ++ b) := by
  induction s generalizing v r with
  | nil => rw [pLazy3_nil] at h; simp at h
  | cons c cs ih =>
    rw [pLazy3_cons] at h
    rw [List.cons_append, pLazy3_cons]
    cases ha : pAttempt3 (c :: cs) with
    | done v0 r0 =>
      rw [ha] at h
      simp only [PRes.done.injEq] at h
      obtain ⟨rfl, rfl⟩ := h
      have ha2 : pAttempt3 (c :: (cs ++ b)) = .done v0 (r0 ++ b) := by
        have := stable_pAttempt3.2 (c :: cs) v0 r0 b ha
        simpa using this
      rw [ha2]
    | more => rw [ha] at h; simp at h
    | fail =>
      rw [ha] at h
      simp only at h
      have ha2 : pAttempt3 (c :: (cs ++ b)) = .fail := by
        have := stable_pAttempt3.1 (c :: cs) b ha
        simpa using this
      rw [ha2]
      simp only
      cases hl : pLazy3 cs with
      | done v1 r1 =>
        rw [hl] at h
        simp only [PRes.done.injEq] at h
        obtain ⟨rfl, rfl⟩ := h
        rw [ih v1 r1 hl]
      | more => rw [hl] at h; simp at h
      | fail => rw [hl] at h; simp at h

theorem stable_pLazy3 : StableP pLazy3 :=
  ⟨stable_pLazy3_fail, stable_pLazy3_done⟩

theorem stable_p1 : StableP p1 :=
  stable_pbind _ _ (stable_pLit _) (fun _ =>
    stable_pbind _ _ (stable_pTake1 _) (fun _ =>
      stable_pbind _ _ (stable_pLit _) (fun _ =>
        stable_pbind _ _ (stable_pChar _) (fun _ =>
          stable_pbind _ _ (stable_pLit _) (fun _ =>
            stable_pbind _ _ (stable_pChar _) (fun _ =>
              stable_pbind _ _ (stable_pLit _) (fun _ => stable_ppure _)))))))

theorem stable_pGoto : StableP pGoto :=
  stable_pbind _ _ (stable_pLit _) (fun _ =>
    stable_pbind _ _ (stable_pTake1 _) (fun _ =>
      stable_pbind _ _ (stable_pLit _) (fun _ =>
        stable_pbind _ _ (stable_pTake1 _) (fun _ =>
          stable_pbind _ _ (stable_pLit _) (fun _ => stable_ppure _)))))

theorem stable_p3 : StableP p3 :=
  stable_pbind _ _ (stable_pLit _) (fun _ =>
    stable_pbind _ _ stable_pLazy3 (fun _ => stable_ppure _))

theorem stable_p4 : StableP p4 :=
  stable_pbind _ _ (stable_pLit _) (fun _ =>
    stable_pbind _ _ (stable_pTake1 _) (fun _ =>
      stable_pbind _ _ (stable_pLit _) (fun _ =>
        stable_pbind _ _ stable_pW4 (fun _ =>
          stable_pbind _ _ (stable_pLit _) (fun _ =>
            stable_pbind _ _ (stable_pTake1 _) (fun _ =>
              stable_pbind _ _ (stable_pLit _) (fun _ =>
                stable_pbind _ _ (stable_pTake1 _) (fun _ =>
                  stable_pbind _ _ (stable_pLit _) (fun _ => stable_ppure _)))))))))

theorem stable_p5 : StableP p5 :=
  stable_pbind _ _ (stable_pLit _) (fun _ =>
    stable_pbind _ _ (stable_pTake1 _) (fun _ =>
      stable_pbind _ _ (stable_pLit _) (fun _ =>
        stable_pbind _ _ (stable_pTake1 _) (fun _ =>
          stable_pbind _ _ (stable_pLit _) (fun _ => stable_ppure _)))))

theorem leP_pLit (l : List Char) : LeP (pLit l) := by
  intro s v r h
  have := pLit_done_len l s v r h
  omega

theorem leP_pChar (p : Char → Bool) : LeP (pChar p) := by
  intro s v r h
  cases s with
  | nil => simp [pChar] at h
  | cons c cs =>
    by_cases hc : p c
    · simp only [pChar, hc, if_true, PRes.done.injEq] at h
      obtain ⟨-, rfl⟩ := h
      simp
    · simp [pChar, hc] at h

theorem leP_pTake1 (p : Char → Bool) : LeP (pTake1 p) := by
  intro s v r h
  unfold pTake1 at h
  rcases htr : takeRun p s with ⟨run, rest⟩
  rw [htr] at h
  cases run with
  | nil => cases rest <;> simp at h
  | cons x xs =>
    cases rest with
    | nil => simp at h
    | cons c r2 =>
      simp only [PRes.done.injEq] at h
      obtain ⟨-, rfl⟩ := h
      have hs := takeRun_eq_append p s
      rw [htr] at hs
      rw [hs]
      simp
      omega

theorem leP_ppure {α : Type} (v : α) : LeP (ppure v) := by
  intro s w r h
  simp only [ppure, PRes.done.injEq] at h
  obtain ⟨-, rfl⟩ := h
  exact le_refl _

theorem leP_pbind {α β : Type} (P : List Char → PRes α)
    (k : α → List Char → PRes β) (hP : LeP P) (hk : ∀ v, LeP (k v)) :
    LeP (pbind P k) := by
  intro s v r h
  unfold pbind at h
  cases hps : P s with
  | fail => rw [hps] at h; simp at h
  | more => rw [hps] at h; simp at h
  | done w r1 =>
    rw [hps] at h
    exact le_trans (hk w r1 v r h) (hP s w r1 hps)

theorem leP_pW4 : LeP pW4 := by
  intro s v r h
  unfold pW4 at h
  rcases htr : takeRun isSpaceC s with ⟨W, rest⟩
  simp only [htr] at h
  cases rest with
  | nil => simp at h
  | cons c r2 =>
    simp only at h
    cases hln : lastNlSplit W with
    | none => simp [hln] at h
    | some g2 =>
      simp only [hln, PRes.done.injEq] at h
      obtain ⟨-, rfl⟩ := h
      have hs := takeRun_eq_append isSpaceC s
      rw [htr] at hs
      rw [hs]
      simp

theorem leP_pAttempt3 : LeP pAttempt3 :=
  leP_pbind _ _ (leP_pChar _) (fun _ =>
    leP_pbind _ _ (leP_pTake1 _) (fun _ =>
      leP_pbind _ _ (leP_pLit _) (fun _ =>
        leP_pbind _ _ (leP_pTake1 _) (fun _ =>
          leP_pbind _ _ (leP_pLit _) (fun _ =>
            leP_pbind _ _ (leP_pTake1 _) (fun _ =>
              leP_pbind _ _ (leP_pLit _) (fun _ => leP_ppure _)))))))

theorem leP_pLazy3 : LeP pLazy3 := by
  intro s
  induction s with
  | nil =>
    intro v r h
    rw [pLazy3_nil] at h
    simp at h
  | cons c cs ih =>
    intro v r h
    rw [pLazy3_cons] at h
    cases ha : pAttempt3 (c :: cs) with
    | done v0 r0 =>
      rw [ha] at h
      simp only [PRes.done.injEq] at h
      obtain ⟨rfl, rfl⟩ := h
      exact leP_pAttempt3 (c :: cs) v0 r0 ha
    | more => rw [ha] at h; simp at h
    | fail =>
      rw [ha] at h
      simp only at h
      cases hl : pLazy3 cs with
      | done v1 r1 =>
        rw [hl] at h
        simp only [PRes.done.injEq] at h
        obtain ⟨rfl, rfl⟩ := h
        exact le_trans (ih v1 r1 hl) (by simp)
      | more => rw [hl] at h; simp at h
      | fail => rw [hl] at h; simp at h

theorem lt_of_bind_lit {β : Type} (L : List Char) (k : Unit → List Char → PRes β)
    (hL : L ≠ []) (hk : ∀ u, LeP (k u)) (s : List Char) (v : β) (r : List Char)
    (h : pbind (pLit L) k s = .done v r) : r.length < s.length := by
  unfold pbind at h
  cases hps : pLit L s with
  | fail => rw [hps] at h; simp at h
  | more => rw [hps] at h; simp at h
  | done u r1 =>
    rw [hps] at h
    have h1 := pLit_done_len L s u r1 hps
    have h2 := hk u r1 v r h
    have h3 : 0 < L.length := List.length_pos.mpr hL
    omega

theorem consumes_p1 : Consumes (pOpt p1) := by
  intro s v r h
  rw [pOpt_eq_some] at h
  exact lt_of_bind_lit awaitL _ (by simp [awaitL]) (fun u =>
    leP_pbind _ _ (leP_pTake1 _) (fun _ =>
      leP_pbind _ _ (leP_pLit _) (fun _ =>
        leP_pbind _ _ (leP_pChar _) (fun _ =>
          leP_pbind _ _ (leP_pLit _) (fun _ =>
            leP_pbind _ _ (leP_pChar _) (fun _ =>
              leP_pbind _ _ (leP_pLit _) (fun _ => leP_ppure _))))))) s v r h

theorem consumes_pGoto (s : List Char) (v : List Char × List Char)
    (r : List Char) (h : pOpt pGoto s = some (v, r)) : r.length < s.length := by
  rw [pOpt_eq_some] at h
  exact lt_of_bind_lit awaitL _ (by simp [awaitL]) (fun u =>
    leP_pbind _ _ (leP_pTake1 _) (fun _ =>
      leP_pbind _ _ (leP_pLit _) (fun _ =>
        leP_pbind _ _ (leP_pTake1 _) (fun _ =>
          leP_pbind _ _ (leP_pLit _) (fun _ => leP_ppure _))))) s v r h

theorem consumes_mGoto : Consumes mGoto := by
  intro s v r h
  unfold mGoto at h
  cases hg : pOpt pGoto s with
  | none => rw [hg] at h; simp at h
  | some gr =>
    obtain ⟨⟨g1, g2⟩, r1⟩ := gr
    rw [hg] at h
    simp only [Option.some.injEq, Prod.mk.injEq] at h
    obtain ⟨-, rfl⟩ := h
    exact consumes_pGoto s (g1, g2) r1 hg

theorem consumes_p3 : Consumes (pOpt p3) := by
  intro s v r h
  rw [pOpt_eq_some] at h
  exact lt_of_bind_lit cmtL _ (by simp [cmtL]) (fun u =>
    leP_pbind _ _ leP_pLazy3 (fun _ => leP_ppure _)) s v r h

theorem consumes_p4 : Consumes (pOpt p4) := by
  intro s v r h
  rw [pOpt_eq_some] at h
  exact lt_of_bind_lit awaitL _ (by simp [awaitL]) (fun u =>
    leP_pbind _ _ (leP_pTake1 _) (fun _ =>
      leP_pbind _ _ (leP_pLit _) (fun _ =>
        leP_pbind _ _ leP_pW4 (fun _ =>
          leP_pbind _ _ (leP_pLit _) (fun _ =>
            leP_pbind _ _ (leP_pTake1 _) (fun _ =>
              leP_pbind _ _ (leP_pLit _) (fun _ =>
                leP_pbind _ _ (leP_pTake1 _) (fun _ =>
                  leP_pbind _ _ (leP_pLit _) (fun _ => leP_ppure _))))))))) s v r h

theorem consumes_p5 : Consumes (pOpt p5) := by
  intro s v r h
  rw [pOpt_eq_some] at h
  exact lt_of_bind_lit awaitL _ (by simp [awaitL]) (fun u =>
    leP_pbind _ _ (leP_pTake1 _) (fun _ =>
      leP_pbind _ _ (leP_pLit _) (fun _ =>
        leP_pbind _ _ (leP_pTake1 _) (fun _ =>
          leP_pbind _ _ (leP_pLit _) (fun _ => leP_ppure _))))) s v r h

theorem consumes_nil_none (m : List Char → Option (List Char × List Char))
    (hm : Consumes m) : m [] = none := by
  cases h : m [] with
  | none => rfl
  | some vr =>
    obtain ⟨v, r⟩ := vr
    have := hm [] v r h
    simp at this

theorem subnF_fuel_eq (m : List Char → Option (List Char × List Char))
    (hm : Consumes m) :
    ∀ f g s, s.length ≤ f → s.length ≤ g → subnF m f s = subnF m g s := by
  intro f
  induction f with
  | zero =>
    intro g s hf hg
    have hs : s = [] := List.eq_nil_of_length_eq_zero (Nat.le_zero.mp hf)
    subst hs
    cases g with
    | zero => rfl
    | succ g' => simp [subnF, consumes_nil_none m hm]
  | succ f' ih =>
    intro g s hf hg
    cases s with
    | nil =>
      cases g with
      | zero => simp [subnF, consumes_nil_none m hm]
      | succ g' => simp [subnF, consumes_nil_none m hm]
    | cons c cs =>
      cases g with
      | zero => simp at hg
      | succ g' =>
        simp only [List.length_cons] at hf hg
        cases hms : m (c :: cs) with
        | some vr =>
          obtain ⟨r, rest⟩ := vr
          have hlt := hm (c :: cs) r rest hms
          simp only [List.length_cons] at hlt
          simp only [subnF, hms]
          rw [ih g' rest (by omega) (by omega)]
        | none =>
          simp only [subnF, hms]
          rw [ih g' cs (by omega) (by omega)]

theorem subn_fuel_any (m : List Char → Option (List Char × List Char))
    (hm : Consumes m) (f : Nat) (s : List Char) (hf : s.length ≤ f) :
    subnF m f s = subn m s :=
  subnF_fuel_eq m hm f s.length s hf (le_refl _)

theorem subn_step (m : List Char → Option (List Char × List Char))
    (hm : Consumes m) (s r rest : List Char) (h : m s = some (r, rest)) :
    subn m s = (r ++ (subn m rest).1, (subn m rest).2 + 1) := by
  have hlt := hm s r rest h
  cases s with
  | nil => simp at hlt
  | cons c cs =>
    unfold subn
    simp only [List.length_cons, subnF, h]
    rw [subn_fuel_any m hm cs.length rest (by simp at hlt; omega)]
    rfl

theorem subnF_no_match (m : List Char → Option (List Char × List Char)) :
    ∀ f s, hasMatchB m s = false → subnF m f s = (s, 0) := by
  intro f
  induction f with
  | zero => intro s h; rfl
  | succ f' ih =>
    intro s h
    cases s with
    | nil =>
      have hnone : m [] = none := by
        simp only [hasMatchB, Option.isSome] at h
        cases hm : m [] with
        | none => rfl
        | some v => rw [hm] at h; simp at h
      simp [subnF, hnone]
    | cons c cs =>
      simp only [hasMatchB, Bool.or_eq_false_iff] at h
      obtain ⟨h1, h2⟩ := h
      have hnone : m (c :: cs) = none := by
        cases hm : m (c :: cs) with
        | none => rfl
        | some v => rw [hm] at h1; simp at h1
      simp only [subnF, hnone]
      rw [ih cs h2]

theorem subn_no_match (m : List Char → Option (List Char × List Char))
    (s : List Char) (h : hasMatchB m s = false) : subn m s = (s, 0) :=
  subnF_no_match m s.length s h

theorem subnF_zero_id (m : List Char → Option (List Char × List Char)) :
    ∀ f s t, subnF m f s = (t, 0) → t = s := by
  intro f
  induction f with
  | zero =>
    intro s t h
    simpa using congrArg Prod.fst h.symm
  | succ f' ih =>
    intro s t h
    simp only [subnF] at h
    cases hms : m s with
    | some vr =>
      obtain ⟨r, rest⟩ := vr
      rw [hms] at h
      simp only [Prod.mk.injEq] at h
      omega
    | none =>
      rw [hms] at h
      cases s with
      | nil =>
        simpa using congrArg Prod.fst h.symm
      | cons c cs =>
        simp only [Prod.mk.injEq] at h
        obtain ⟨h1, h2⟩ := h
        rw [← h1, ih cs (subnF m f' cs).1 (by rw [← h2])]

theorem subn_zero_id (m : List Char → Option (List Char × List Char))
    (s t : List Char) (h : subn m s = (t, 0)) : t = s :=
  subnF_zero_id m s.length s t h

theorem hasMatchB_false_of_forall {α : Type} (m : List Char → Option (α × List Char))
    (s : List Char) (h : ∀ i, m (List.drop i s) = none) :
    hasMatchB m s = false := by
  induction s with
  | nil =>
    simp only [hasMatchB]
    rw [show m [] = none from h 0]
    rfl
  | cons c cs ih =>
    simp only [hasMatchB, Bool.or_eq_false_iff]
    constructor
    · rw [show m (c :: cs) = none from h 0]
      rfl
    · exact ih (fun i => h (i + 1))

theorem subn_append_left (m : List Char → Option (List Char × List Char))
    (hm : Consumes m) (A T : List Char)
    (hA : ∀ i, i < A.length → m (List.drop i (A ++ T)) = none) :
    subn m (A ++ T) = (A ++ (subn m T).1, (subn m T).2) := by
  induction A with
  | nil => simp
  | cons c A' ih =>
    have h0 : m (c :: (A' ++ T)) = none := by
      have := hA 0 (by simp)
      simpa using this
    unfold subn
    simp only [List.cons_append, List.length_cons, subnF, h0, List.append_eq]
    rw [subn_fuel_any m hm (A' ++ T).length (A' ++ T) (le_refl _)]
    rw [ih (fun i hi => by
      have := hA (i + 1) (by simp; omega)
      simpa using this)]
    rfl

theorem subn_snd_zero (m : List Char → Option (List Char × List Char))
    (s : List Char) (h : (subn m s).2 = 0) : (subn m s).1 = s := by
  have heq : subn m s = ((subn m s).1, (subn m s).2) := rfl
  rw [h] at heq
  exact subn_zero_id m s (subn m s).1 heq

theorem fix1_id (s : List Char) (h : hasMatchB (pOpt p1) s = false) :
    fix1 s = (s, 0) := subn_no_match _ s h

theorem fix3_id (s : List Char) (h : hasMatchB (pOpt p3) s = false) :
    fix3 s = (s, 0) := subn_no_match _ s h

theorem fix4_id (s : List Char) (h : hasMatchB (pOpt p4) s = false) :
    fix4 s = (s, 0) := subn_no_match _ s h

theorem fix5_id (s : List Char) (h : hasMatchB (pOpt p5) s = false) :
    fix5 s = (s, 0) := subn_no_match _ s h

theorem fix2Line_id (line : List Char) (h : lineFires line = false) :
    fix2Line line = (line, 0) := by
  unfold fix2Line
  unfold lineFires at h
  by_cases hg : lineGuard line
  · rw [hg] at h
    simp only [Bool.true_and] at h
    cases hs : searchGoto line with
    | none => simp [hg, hs]
    | some g2 =>
      rw [hs] at h
      have h2 : (List.count ',' g2 == 0) = false := h
      simp [hg, hs, h2]
  · simp [hg]

theorem fix2Line_snd (line : List Char) :
    (fix2Line line).2 = if lineFires line then 1 else 0 := by
  unfold fix2Line lineFires
  by_cases hg : lineGuard line
  · cases hs : searchGoto line with
    | none => simp [hg, hs]
    | some g2 =>
      by_cases hc : (List.count ',' g2 == 0) = true
      · simp [hg, hs, hc]
      · simp [hg, hs, hc]
  · simp [hg]

theorem processLines_id (ls : List (List Char))
    (h : ∀ l ∈ ls, lineFires l = false) : processLines ls = (ls, 0) := by
  induction ls with
  | nil => rfl
  | cons l ls ih =>
    simp only [processLines]
    rw [fix2Line_id l (h l (List.mem_cons_self l ls)),
      ih (fun x hx => h x (List.mem_cons_of_mem l hx))]
    rfl

theorem processLines_snd (ls : List (List Char)) :
    (processLines ls).2 = ls.countP lineFires := by
  induction ls with
  | nil => rfl
  | cons l ls ih =>
    simp only [processLines, List.countP_cons, fix2Line_snd, ih]
    by_cases h : lineFires l <;> simp [h] <;> omega

theorem fix2_id (s : List Char)
    (h : (splitNl s).all (fun l => !lineFires l) = true) : fix2 s = (s, 0) := by
  have hp := processLines_id (splitNl s) (by
    intro l hl
    have := (List.all_eq_true.mp h) l hl
    simpa using this)
  show (joinNl (processLines (splitNl s)).1, (processLines (splitNl s)).2) = (s, 0)
  rw [hp]
  show (joinNl (splitNl s), 0) = (s, 0)
  rw [splitNl_join]

theorem fix2_snd (s : List Char) :
    (fix2 s).2 = (splitNl s).countP lineFires := by
  unfold fix2
  exact processLines_snd (splitNl s)

theorem processLines_fst_id (ls : List (List Char))
    (h : (processLines ls).2 = 0) : (processLines ls).1 = ls := by
  induction ls with
  | nil => rfl
  | cons l ls ih =>
    simp only [processLines] at h ⊢
    have h1 : (fix2Line l).2 = 0 := by omega
    have h2 : (processLines ls).2 = 0 := by omega
    have hl : fix2Line l = (l, 0) := by
      rw [fix2Line_snd] at h1
      by_cases hf : lineFires l
      · rw [if_pos hf] at h1; simp at h1
      · exact fix2Line_id l (Bool.eq_false_iff.mpr hf)
    rw [hl, ih h2]

theorem fix2_zero_id (s : List Char) (h : (fix2 s).2 = 0) : (fix2 s).1 = s := by
  have h2 : (processLines (splitNl s)).2 = 0 := h
  show joinNl (processLines (splitNl s)).1 = s
  rw [processLines_fst_id (splitNl s) h2, splitNl_join]

theorem applyRules_zero (s : List Char) (h : (applyRules s).2 = 0) :
    (applyRules s).1 = s := by
  unfold applyRules at h ⊢
  simp only at h ⊢
  have h1 : (fix1 s).2 = 0 := by omega
  have t1 : (fix1 s).1 = s := subn_snd_zero _ s h1
  rw [t1] at h ⊢
  have h2 : (fix2 s).2 = 0 := by omega
  have t2 : (fix2 s).1 = s := fix2_zero_id s h2
  rw [t2] at h ⊢
  have h3 : (fix3 s).2 = 0 := by omega
  have t3 : (fix3 s).1 = s := subn_snd_zero _ s h3
  rw [t3] at h ⊢
  have h4 : (fix4 s).2 = 0 := by omega
  have t4 : (fix4 s).1 = s := subn_snd_zero _ s h4
  rw [t4] at h ⊢
  have h5 : (fix5 s).2 = 0 := by omega
  exact subn_snd_zero _ s h5

/-- C9: the rewrite engine is total by construction (`fix_file` is a total
computable function from text to text and count; no Lean `Option`/`Except`
was needed anywhere in the embedding because no string operation of the
source can raise), and a zero returned count is exactly the "nothing was
rewritten" outcome: the count is zero iff the returned text is the input. -/
theorem c9_engine_total_zero_iff_unchanged (s : List Char) :
    (fix_file s).2 = 0 ↔ (fix_file s).1 = s := by
  have hf : fix_file s = if (applyRules s).1 = s then (s, 0) else applyRules s := rfl
  rw [hf]
  by_cases hr : (applyRules s).1 = s
  · rw [if_pos hr]
    simp
  · rw [if_neg hr]
    constructor
    · intro h0
      exact absurd (applyRules_zero s h0) hr
    · intro h1
      exact absurd h1 hr

/-- C3: on input in which no rule finds anything to rewrite (none of the four
whole-text patterns matches anywhere, and no line passes rule 2's guard with
a comma-free first capture), the engine returns the input byte-for-byte
unchanged with a change count of zero. -/
theorem c3_noop_on_clean_input (s : List Char) (h : noTrigger s = true) :
    fix_file s = (s, 0) := by
  unfold noTrigger at h
  simp only [Bool.and_eq_true, Bool.not_eq_true'] at h
  obtain ⟨⟨⟨⟨h1, h2⟩, h3⟩, h4⟩, h5⟩ := h
  have t1 : fix1 s = (s, 0) := fix1_id s h1
  have t2 : fix2 s = (s, 0) := fix2_id s h2
  have t3 : fix3 s = (s, 0) := fix3_id s h3
  have t4 : fix4 s = (s, 0) := fix4_id s h4
  have t5 : fix5 s = (s, 0) := fix5_id s h5
  have har : applyRules s = (s, 0) := by
    show ((fix5 (fix4 (fix3 (fix2 (fix1 s).1).1).1).1).1,
        (fix1 s).2 + (fix2 (fix1 s).1).2 + (fix3 (fix2 (fix1 s).1).1).2 +
          (fix4 (fix3 (fix2 (fix1 s).1).1).1).2 +
          (fix5 (fix4 (fix3 (fix2 (fix1 s).1).1).1).1).2) = (s, 0)
    simp only [t1, t2, t3, t4, t5]
  show (if (applyRules s).1 = s then ((s, 0) : List Char × Nat) else applyRules s) = (s, 0)
  rw [har]
  simp

/-- Witness for C3 at a concrete clean input. -/
theorem c3_noop_on_clean_input_witness :
    fix_file "const x = 1;\n".toList = ("const x = 1;\n".toList, 0) :=
  c3_noop_on_clean_input _ (by decide)

set_option maxRecDepth 400000 in
/-- C2 counterexample: on a line holding two single-argument goto calls the
engine rewrites both (the output shows both with the injected options) but
the returned count is 1, not 2 — rule 2 counts lines, not substitutions. -/
theorem c2_count_counterexample :
    (fix_file "await a.goto(x) await b.goto(y)".toList).1 =
        "await a.goto(x, \x7b waitUntil: \\'domcontentloaded\\', timeout: 10000 \x7d) await b.goto(y, \x7b waitUntil: \\'domcontentloaded\\', timeout: 10000 \x7d)".toList ∧
      (fix_file "await a.goto(x) await b.goto(y)".toList).2 = 1 := by
  constructor
  · decide
  · decide

/-- C2 as amended: the returned total is additive across the five stages,
where stages 1, 3, 4 and 5 contribute one per substitution performed by
their scan and stage 2 contributes one per line on which it fired (a line on
which several goto calls are rewritten still contributes one). -/
theorem c2_amended_count_decomposition (s : List Char) :
    (applyRules s).2 =
      (fix1 s).2 + (splitNl (fix1 s).1).countP lineFires +
        (fix3 (fix2 (fix1 s).1).1).2 + (fix4 (fix3 (fix2 (fix1 s).1).1).1).2 +
        (fix5 (fix4 (fix3 (fix2 (fix1 s).1).1).1).1).2 := by
  have h : (applyRules s).2 =
      (fix1 s).2 + (fix2 (fix1 s).1).2 + (fix3 (fix2 (fix1 s).1).1).2 +
        (fix4 (fix3 (fix2 (fix1 s).1).1).1).2 +
        (fix5 (fix4 (fix3 (fix2 (fix1 s).1).1).1).1).2 := rfl
  rw [h, fix2_snd]

set_option maxRecDepth 400000 in
/-- C1 counterexample: the engine is not idempotent.  Rule 5 splits this
line, moving the trailing comma that blocked rule 2 onto a new line, so a
second pass rewrites the goto call and reports one further change. -/
theorem c1_idempotence_counterexample :
    (fix_file (fix_file "await page.goto(x) await page.waitForTimeout(5),".toList).1).2 = 1 ∧
      (fix_file (fix_file "await page.goto(x) await page.waitForTimeout(5),".toList).1).1 ≠
        (fix_file "await page.goto(x) await page.waitForTimeout(5),".toList).1 := by
  constructor
  · decide
  · decide

set_option maxRecDepth 400000 in
/-- C1 as amended: idempotence fails in general (see the counterexample),
but a second pass is a no-op on each of the specification's six scenario
inputs. -/
theorem c1_amended_scenario_idempotence :
    fix_file (fix_file "await page.waitForLoadState('networkidle')".toList).1 =
        ((fix_file "await page.waitForLoadState('networkidle')".toList).1, 0) ∧
      fix_file (fix_file "await page.goto('https://x')".toList).1 =
        ((fix_file "await page.goto('https://x')".toList).1, 0) ∧
      fix_file (fix_file "await page.goto('https://x', \x7b waitUntil: 'load' \x7d)".toList).1 =
        ((fix_file "await page.goto('https://x', \x7b waitUntil: 'load' \x7d)".toList).1, 0) ∧
      fix_file (fix_file "// Wait for iframe to load\n  await page.waitForTimeout(500)".toList).1 =
        ((fix_file "// Wait for iframe to load\n  await page.waitForTimeout(500)".toList).1, 0) ∧
      fix_file (fix_file "await button.click()\n  await page.waitForTimeout(300)".toList).1 =
        ((fix_file "await button.click()\n  await page.waitForTimeout(300)".toList).1, 0) ∧
      fix_file (fix_file "await page.waitForTimeout(1000)".toList).1 =
        ((fix_file "await page.waitForTimeout(1000)".toList).1, 0) := by
  refine ⟨?_, ?_, ?_, ?_, ?_, ?_⟩
  · decide
  · decide
  · decide
  · decide
  · decide
  · decide

set_option maxRecDepth 400000 in
/-- C4: the driver's pre-filter reads the file handle twice; the second read
happens at end-of-file and yields the empty string, so the `networkidle`
test is vacuous and a file containing `networkidle` but not `waitForTimeout`
is skipped even though the engine would rewrite it. -/
theorem c4_driver_prefilter_bug :
    driverSkips "await page.waitForLoadState('networkidle')".toList = true ∧
      containsSub "await page.waitForLoadState('networkidle')".toList nidTrigger = true ∧
      (fix_file "await page.waitForLoadState('networkidle')".toList).2 = 1 := by
  refine ⟨?_, ?_, ?_⟩
  · decide
  · decide
  · decide

set_option maxRecDepth 400000 in
/-- C5: rule 2 does add a second argument and count one to a bare goto call,
and leaves an already-optioned call unchanged with count zero — but the
replacement template is a raw Python string, so the inserted options object
carries literal backslashes around `domcontentloaded`, not the clean quotes
the specification describes. -/
theorem c5_goto_rewrite_bug :
    fix_file "await page.goto('https://x')".toList =
        ("await page.goto('https://x', \x7b waitUntil: \\'domcontentloaded\\', timeout: 10000 \x7d)".toList, 1) ∧
      fix_file "await page.goto('https://x', \x7b waitUntil: 'load' \x7d)".toList =
        ("await page.goto('https://x', \x7b waitUntil: 'load' \x7d)".toList, 0) ∧
      containsSub (fix_file "await page.goto('https://x')".toList).1
        "\\'domcontentloaded\\'".toList = true := by
  refine ⟨?_, ?_, ?_⟩
  · decide
  · decide
  · decide

set_option maxRecDepth 400000 in
/-- C6 counterexample: rule 3 fires although a non-whitespace line (`XYZ`)
stands between the comment and the fixed-duration wait; the lazy DOTALL gap
`.*?` crosses arbitrary text.  The wait is rewritten contextually (count 1)
and no review TODO is inserted, where the claim predicts the catch-all. -/
theorem c6_counterexample :
    fix_file "// Wait for iframe to load\nXYZ\n  await page.waitForTimeout(500)".toList =
        ("// Wait for iframe to load\nXYZ\n  await page.waitForSelector('#absmartly-sidebar-iframe', \x7b state: 'attached', timeout: 5000 \x7d).catch(() => \x7b\x7d)".toList, 1) ∧
      containsSub
        (fix_file "// Wait for iframe to load\nXYZ\n  await page.waitForTimeout(500)".toList).1
        todoL = false := by
  constructor
  · decide
  · decide

set_option maxRecDepth 400000 in
/-- C6 as amended: rule 3 replaces a fixed-duration wait that follows the
iframe comment with the sidebar-attachment wait (5000 timeout, failure
swallowed via catch) both when the comment immediately precedes it and when
arbitrary non-whitespace text intervenes — the wait only needs a newline and
at least one whitespace character in front of it after the comment. -/
theorem c6_amended_comment_context :
    fix_file "// Wait for iframe to load\n  await page.waitForTimeout(500)".toList =
        ("// Wait for iframe to load\n  await page.waitForSelector('#absmartly-sidebar-iframe', \x7b state: 'attached', timeout: 5000 \x7d).catch(() => \x7b\x7d)".toList, 1) ∧
      fix_file "// Wait for iframe to load\nconst a = 1;\n  await page.waitForTimeout(250)".toList =
        ("// Wait for iframe to load\nconst a = 1;\n  await page.waitForSelector('#absmartly-sidebar-iframe', \x7b state: 'attached', timeout: 5000 \x7d).catch(() => \x7b\x7d)".toList, 1) := by
  constructor
  · decide
  · decide

set_option maxRecDepth 400000 in
/-- C10: rule 2 leaves a line unchanged when it contains `, \x7b`, or lacks
`await `, or its stripped text ends with a comma; and whole inputs of these
shapes that carry a single-argument goto call pass through the entire engine
untouched. -/
theorem c10_rule2_line_guard :
    (∀ line : List Char,
        containsSub line commaBraceL = true ∨ containsSub line awaitL = false ∨
          endsCommaStripped line = true → fix2Line line = (line, 0)) ∧
      fix_file "await page.goto('https://x'),".toList =
        ("await page.goto('https://x'),".toList, 0) ∧
      fix_file "page.goto('https://x')".toList = ("page.goto('https://x')".toList, 0) ∧
      fix_file "await page.goto('x') /* , \x7b */".toList =
        ("await page.goto('x') /* , \x7b */".toList, 0) := by
  refine ⟨?_, by decide, by decide, by decide⟩
  intro line h
  apply fix2Line_id
  unfold lineFires lineGuard
  rcases h with h | h | h
  · simp [h]
  · simp [h]
  · simp [h]

set_option maxRecDepth 400000 in
/-- Witness for C10's universal part at a concrete line. -/
theorem c10_rule2_line_guard_witness :
    fix2Line "await x.goto(y),".toList = ("await x.goto(y),".toList, 0) :=
  c10_rule2_line_guard.1 _ (Or.inr (Or.inr (by decide)))

theorem isFail_iff {α : Type} (x : PRes α) : x.isFail = true ↔ x = .fail := by
  cases x <;> simp [PRes.isFail]

theorem bind_lit_sw {β : Type} (L : List Char) (k : Unit → List Char → PRes β)
    (s : List Char) (v : β) (r : List Char)
    (h : pbind (pLit L) k s = .done v r) : startsWithL s L = true := by
  unfold pbind at h
  cases hps : pLit L s with
  | fail => rw [hps] at h; simp at h
  | more => rw [hps] at h; simp at h
  | done u r1 => exact pLit_done_sw L s u r1 hps

theorem p1_sw (s : List Char) (v r : List Char) (h : p1 s = .done v r) :
    startsWithL s awaitL = true := bind_lit_sw awaitL _ s v r h

theorem p3_sw (s : List Char) (v r : List Char) (h : p3 s = .done v r) :
    startsWithL s cmtL = true := bind_lit_sw cmtL _ s v r h

theorem p4_sw (s : List Char) (v r : List Char) (h : p4 s = .done v r) :
    startsWithL s awaitL = true := bind_lit_sw awaitL _ s v r h

theorem p5_sw (s : List Char) (v r : List Char) (h : p5 s = .done v r) :
    startsWithL s awaitL = true := bind_lit_sw awaitL _ s v r h

/-- No occurrence of the keyword `K` can begin strictly inside `A` when `A`
contains no `K` and the continuation `X` does not begin with any proper tail
of `K`. -/
theorem no_start_left (A X K : List Char) (hA : containsSub A K = false)
    (hX : ∀ k, 0 < k → k < K.length → startsWithL X (List.drop k K) = false) :
    ∀ i, i < A.length → startsWithL (List.drop i A ++ X) K = false := by
  intro i hi
  cases hval : startsWithL (List.drop i A ++ X) K with
  | false => rfl
  | true =>
    exfalso
    have hxlen : (List.drop i A).length = A.length - i := List.length_drop i A
    rcases le_or_lt K.length (List.drop i A).length with hle | hlt
    · have h1 := sw_append_long (List.drop i A) X K hle
      rw [hval] at h1
      have h2 : containsSub A K = true :=
        containsSub_of_sw_drop A K i h1.symm
      rw [h2] at hA
      exact absurd hA (by simp)
    · have h2 := sw_append_short (List.drop i A) X K hlt hval
      have h3 := hX (List.drop i A).length (by omega) hlt
      rw [h3] at h2
      exact absurd h2 (by simp)

theorem containsSub_pat_of_sw (s : List Char) (p q : List Char)
    (hpq : startsWithL q p = true) (h : containsSub s q = true) :
    containsSub s p = true :=
  containsSub_pat_mono s p q ((startsWithL_iff q p).mp hpq) h

theorem fix2_id_of_no_goto (s : List Char)
    (h : containsSub s gotoOpenL = false) : fix2 s = (s, 0) := by
  apply fix2_id
  rw [List.all_eq_true]
  intro l hl
  simp only [Bool.not_eq_true']
  unfold lineFires lineGuard
  have hg : containsSub l gotoOpenL = false := by
    cases hval : containsSub l gotoOpenL with
    | false => rfl
    | true =>
      have := containsSub_infix_mono l s gotoOpenL hval (mem_splitNl_inf s l hl)
      rw [this] at h
      exact absurd h (by simp)
  simp [hg]

theorem sw_tail_append (C B K : List Char) (hlen : K.length ≤ C.length + 1)
    (k : Nat) (hk0 : 0 < k) (hk : k < K.length)
    (hCk : startsWithL C (List.drop k K) = false) :
    startsWithL (C ++ B) (List.drop k K) = false := by
  rw [sw_append_long C B _ (by rw [List.length_drop]; omega)]
  exact hCk

/-- Scanning the `A`-region of `A ++ X` never matches `P` when `P` demands
the keyword `K` up front, `A` holds no `K`, and `X` does not begin with a
proper tail of `K`. -/
theorem no_match_left_of_keyword {α : Type} (P : List Char → PRes α)
    (K A X : List Char)
    (hswP : ∀ s v r, P s = .done v r → startsWithL s K = true)
    (hA : containsSub A K = false)
    (hXk : ∀ k, 0 < k → k < K.length → startsWithL X (List.drop k K) = false) :
    ∀ i, i < A.length → pOpt P (List.drop i (A ++ X)) = none := by
  intro i hi
  rw [List.drop_append_of_le_length (le_of_lt hi)]
  cases hmv : pOpt P (List.drop i A ++ X) with
  | none => rfl
  | some vr =>
    exfalso
    obtain ⟨v, r⟩ := vr
    have hdone := (pOpt_eq_some P _ v r).mp hmv
    have hsw := hswP _ v r hdone
    have hns := no_start_left A X K hA hXk i hi
    rw [hsw] at hns
    exact absurd hns (by simp)

/-- A text with no occurrence of `P`'s leading keyword is scanned without a
match. -/
theorem no_match_no_keyword {α : Type} (P : List Char → PRes α) (K B : List Char)
    (hswP : ∀ s v r, P s = .done v r → startsWithL s K = true)
    (hB : containsSub B K = false) : hasMatchB (pOpt P) B = false := by
  apply hasMatchB_false_of_forall
  intro j
  cases hmv : pOpt P (List.drop j B) with
  | none => rfl
  | some vr =>
    exfalso
    obtain ⟨v, r⟩ := vr
    have hdone := (pOpt_eq_some P _ v r).mp hmv
    have hsw := hswP _ v r hdone
    have hcs := containsSub_of_sw_drop B K _ hsw
    rw [hcs] at hB
    exact absurd hB (by simp)

/-- No match anywhere in `A ++ (C ++ B)` when the keyword is absent from `A`
and `B`, the concrete region `C` fails `P` definitively at every inner
position, and `C ++ B` does not begin with a proper tail of the keyword. -/
theorem no_match_three_regions {α : Type} (P : List Char → PRes α)
    (hst : StableP P) (K A C B : List Char)
    (hswP : ∀ s v r, P s = .done v r → startsWithL s K = true)
    (hA : containsSub A K = false) (hB : containsSub B K = false)
    (hXk : ∀ k, 0 < k → k < K.length → startsWithL (C ++ B) (List.drop k K) = false)
    (hC : ∀ j, j < C.length → (P (List.drop j C)).isFail = true) :
    hasMatchB (pOpt P) (A ++ (C ++ B)) = false := by
  apply hasMatchB_false_of_forall
  intro i
  rcases lt_or_ge i A.length with hi | hi
  · exact no_match_left_of_keyword P K A (C ++ B) hswP hA hXk i hi
  · rw [List.drop_append_eq_append_drop, List.drop_eq_nil_of_le hi,
      List.nil_append]
    rcases lt_or_ge (i - A.length) C.length with hj | hj
    · rw [List.drop_append_of_le_length (le_of_lt hj)]
      have hfail : P (List.drop (i - A.length) C) = .fail :=
        (isFail_iff _).mp (hC _ hj)
      apply pOpt_eq_none
      rw [hst.1 _ B hfail]
      rfl
    · rw [List.drop_append_eq_append_drop, List.drop_eq_nil_of_le hj,
        List.nil_append]
      cases hmv : pOpt P (List.drop (i - A.length - C.length) B) with
      | none => rfl
      | some vr =>
        exfalso
        obtain ⟨v, r⟩ := vr
        have hdone := (pOpt_eq_some P _ v r).mp hmv
        have hsw := hswP _ v r hdone
        have hcs := containsSub_of_sw_drop B K _ hsw
        rw [hcs] at hB
        exact absurd hB (by simp)

set_option maxRecDepth 1000000 in
/-- C7: the contextual rules win over the catch-all.  For any surrounding
text `A`, `B` free of the word `await` (and, for each half, free of the
other patterns' triggers), a fixed-duration wait in rule 4's click context
or in rule 3's comment context is rewritten by that contextual rule, the
change count is one, and the catch-all's review TODO marker does not appear:
the replacement inserted at the occurrence is the contextual one, which
contains no TODO. -/
theorem c7_contextual_rules_win :
    (∀ A B : List Char,
        containsSub A "await".toList = false →
        containsSub B "await".toList = false →
        hasMatchB (pOpt p1) (A ++ (clickCtx ++ B)) = false →
        containsSub (A ++ (clickCtx ++ B)) gotoOpenL = false →
        hasMatchB (pOpt p3) (A ++ (clickCtx ++ B)) = false →
        fix_file (A ++ (clickCtx ++ B)) = (A ++ (clickRepl ++ B), 1) ∧
          containsSub clickRepl todoL = false) ∧
      (∀ A B : List Char,
        containsSub A "await".toList = false →
        containsSub B "await".toList = false →
        containsSub A cmtL = false →
        containsSub B cmtL = false →
        hasMatchB (pOpt p1) (A ++ (cmtCtx ++ B)) = false →
        containsSub (A ++ (cmtCtx ++ B)) gotoOpenL = false →
        fix_file (A ++ (cmtCtx ++ B)) = (A ++ (cmtRepl ++ B), 1) ∧
          containsSub cmtRepl todoL = false) := by
  constructor
  · intro A B hA hB h1 h2 h3
    have hA6 : containsSub A awaitL = false := by
      cases hval : containsSub A awaitL with
      | false => rfl
      | true =>
        have hc := containsSub_pat_of_sw A "await".toList awaitL (by decide) hval
        rw [hc] at hA
        exact absurd hA (by simp)
    have hB6 : containsSub B awaitL = false := by
      cases hval : containsSub B awaitL with
      | false => rfl
      | true =>
        have hc := containsSub_pat_of_sw B "await".toList awaitL (by decide) hval
        rw [hc] at hB
        exact absurd hB (by simp)
    have t1 : fix1 (A ++ (clickCtx ++ B)) = (A ++ (clickCtx ++ B), 0) :=
      fix1_id _ h1
    have t2 : fix2 (A ++ (clickCtx ++ B)) = (A ++ (clickCtx ++ B), 0) :=
      fix2_id_of_no_goto _ h2
    have t3 : fix3 (A ++ (clickCtx ++ B)) = (A ++ (clickCtx ++ B), 0) :=
      fix3_id _ h3
    have hX4 : ∀ k, 0 < k → k < awaitL.length →
        startsWithL (clickCtx ++ B) (List.drop k awaitL) = false := by
      intro k hk0 hk
      have hk6 : k < 6 := by
        have hlen : awaitL.length = 6 := by decide
        omega
      apply sw_tail_append clickCtx B awaitL (by decide) k hk0 hk
      interval_cases k <;> decide
    have hleft4 := no_match_left_of_keyword p4 awaitL A (clickCtx ++ B) p4_sw hA6 hX4
    have hb1 : pOpt p4 (clickCtx ++ B) = some (clickRepl, B) := by
      have h0 : p4 clickCtx = .done clickRepl [] :=
        (pOpt_eq_some p4 clickCtx clickRepl []).mp (by decide)
      have hs := stable_p4.2 clickCtx clickRepl [] B h0
      rw [pOpt_eq_some]
      simpa using hs
    have hBno4 : subn (pOpt p4) B = (B, 0) :=
      subn_no_match _ B (no_match_no_keyword p4 awaitL B p4_sw hB6)
    have t4 : fix4 (A ++ (clickCtx ++ B)) = (A ++ (clickRepl ++ B), 1) := by
      unfold fix4
      rw [subn_append_left (pOpt p4) consumes_p4 A (clickCtx ++ B) hleft4]
      rw [subn_step (pOpt p4) consumes_p4 (clickCtx ++ B) clickRepl B hb1]
      rw [hBno4]
    have hX5 : ∀ k, 0 < k → k < awaitL.length →
        startsWithL (clickRepl ++ B) (List.drop k awaitL) = false := by
      intro k hk0 hk
      have hk6 : k < 6 := by
        have hlen : awaitL.length = 6 := by decide
        omega
      apply sw_tail_append clickRepl B awaitL (by decide) k hk0 hk
      interval_cases k <;> decide
    have hmid5 : ∀ j, j < clickRepl.length →
        (p5 (List.drop j clickRepl)).isFail = true := by decide
    have t5 : fix5 (A ++ (clickRepl ++ B)) = (A ++ (clickRepl ++ B), 0) :=
      fix5_id _ (no_match_three_regions p5 stable_p5 awaitL A clickRepl B p5_sw
        hA6 hB6 hX5 hmid5)
    have har : applyRules (A ++ (clickCtx ++ B)) = (A ++ (clickRepl ++ B), 1) := by
      have hdef : applyRules (A ++ (clickCtx ++ B)) =
          ((fix5 (fix4 (fix3 (fix2 (fix1 (A ++ (clickCtx ++ B))).1).1).1).1).1,
            (fix1 (A ++ (clickCtx ++ B))).2 +
              (fix2 (fix1 (A ++ (clickCtx ++ B))).1).2 +
              (fix3 (fix2 (fix1 (A ++ (clickCtx ++ B))).1).1).2 +
              (fix4 (fix3 (fix2 (fix1 (A ++ (clickCtx ++ B))).1).1).1).2 +
              (fix5 (fix4 (fix3 (fix2 (fix1 (A ++ (clickCtx ++ B))).1).1).1).1).2) := rfl
      rw [hdef]
      simp only [t1, t2, t3, t4, t5]
    have hne : ¬(A ++ (clickRepl ++ B) = A ++ (clickCtx ++ B)) := by
      intro heq
      have hlen := congrArg List.length heq
      simp only [List.length_append] at hlen
      have e1 : clickRepl.length = 137 := by decide
      have e2 : clickCtx.length = 53 := by decide
      omega
    refine ⟨?_, by decide⟩
    have hcond : ¬((applyRules (A ++ (clickCtx ++ B))).1 = A ++ (clickCtx ++ B)) := by
      rw [har]
      exact hne
    show (if (applyRules (A ++ (clickCtx ++ B))).1 = A ++ (clickCtx ++ B)
        then ((A ++ (clickCtx ++ B), 0) : List Char × Nat)
        else applyRules (A ++ (clickCtx ++ B))) = (A ++ (clickRepl ++ B), 1)
    rw [if_neg hcond, har]
  · intro A B hA hB hAc hBc h1 h2
    have hA6 : containsSub A awaitL = false := by
      cases hval : containsSub A awaitL with
      | false => rfl
      | true =>
        have hc := containsSub_pat_of_sw A "await".toList awaitL (by decide) hval
        rw [hc] at hA
        exact absurd hA (by simp)
    have hB6 : containsSub B awaitL = false := by
      cases hval : containsSub B awaitL with
      | false => rfl
      | true =>
        have hc := containsSub_pat_of_sw B "await".toList awaitL (by decide) hval
        rw [hc] at hB
        exact absurd hB (by simp)
    have t1 : fix1 (A ++ (cmtCtx ++ B)) = (A ++ (cmtCtx ++ B), 0) :=
      fix1_id _ h1
    have t2 : fix2 (A ++ (cmtCtx ++ B)) = (A ++ (cmtCtx ++ B), 0) :=
      fix2_id_of_no_goto _ h2
    have hXc : ∀ k, 0 < k → k < cmtL.length →
        startsWithL (cmtCtx ++ B) (List.drop k cmtL) = false := by
      intro k hk0 hk
      have hk26 : k < 26 := by
        have hlen : cmtL.length = 26 := by decide
        omega
      apply sw_tail_append cmtCtx B cmtL (by decide) k hk0 hk
      interval_cases k <;> decide
    have hleft3 := no_match_left_of_keyword p3 cmtL A (cmtCtx ++ B) p3_sw hAc hXc
    have hb3 : pOpt p3 (cmtCtx ++ B) = some (cmtRepl, B) := by
      have h0 : p3 cmtCtx = .done cmtRepl [] :=
        (pOpt_eq_some p3 cmtCtx cmtRepl []).mp (by decide)
      have hs := stable_p3.2 cmtCtx cmtRepl [] B h0
      rw [pOpt_eq_some]
      simpa using hs
    have hBno3 : subn (pOpt p3) B = (B, 0) :=
      subn_no_match _ B (no_match_no_keyword p3 cmtL B p3_sw hBc)
    have t3 : fix3 (A ++ (cmtCtx ++ B)) = (A ++ (cmtRepl ++ B), 1) := by
      unfold fix3
      rw [subn_append_left (pOpt p3) consumes_p3 A (cmtCtx ++ B) hleft3]
      rw [subn_step (pOpt p3) consumes_p3 (cmtCtx ++ B) cmtRepl B hb3]
      rw [hBno3]
    have hX4 : ∀ k, 0 < k → k < awaitL.length →
        startsWithL (cmtRepl ++ B) (List.drop k awaitL) = false := by
      intro k hk0 hk
      have hk6 : k < 6 := by
        have hlen : awaitL.length = 6 := by decide
        omega
      apply sw_tail_append cmtRepl B awaitL (by decide) k hk0 hk
      interval_cases k <;> decide
    have hmid4 : ∀ j, j < cmtRepl.length →
        (p4 (List.drop j cmtRepl)).isFail = true := by decide
    have t4 : fix4 (A ++ (cmtRepl ++ B)) = (A ++ (cmtRepl ++ B), 0) :=
      fix4_id _ (no_match_three_regions p4 stable_p4 awaitL A cmtRepl B p4_sw
        hA6 hB6 hX4 hmid4)
    have hmid5 : ∀ j, j < cmtRepl.length →
        (p5 (List.drop j cmtRepl)).isFail = true := by decide
    have t5 : fix5 (A ++ (cmtRepl ++ B)) = (A ++ (cmtRepl ++ B), 0) :=
      fix5_id _ (no_match_three_regions p5 stable_p5 awaitL A cmtRepl B p5_sw
        hA6 hB6 hX4 hmid5)
    have har : applyRules (A ++ (cmtCtx ++ B)) = (A ++ (cmtRepl ++ B), 1) := by
      have hdef : applyRules (A ++ (cmtCtx ++ B)) =
          ((fix5 (fix4 (fix3 (fix2 (fix1 (A ++ (cmtCtx ++ B))).1).1).1).1).1,
            (fix1 (A ++ (cmtCtx ++ B))).2 +
              (fix2 (fix1 (A ++ (cmtCtx ++ B))).1).2 +
              (fix3 (fix2 (fix1 (A ++ (cmtCtx ++ B))).1).1).2 +
              (fix4 (fix3 (fix2 (fix1 (A ++ (cmtCtx ++ B))).1).1).1).2 +
              (fix5 (fix4 (fix3 (fix2 (fix1 (A ++ (cmtCtx ++ B))).1).1).1).1).2) := rfl
      rw [hdef]
      simp only [t1, t2, t3, t4, t5]
    have hne : ¬(A ++ (cmtRepl ++ B) = A ++ (cmtCtx ++ B)) := by
      intro heq
      have hlen := congrArg List.length heq
      simp only [List.length_append] at hlen
      have e1 : cmtRepl.length = 138 := by decide
      have e2 : cmtCtx.length = 59 := by decide
      omega
    refine ⟨?_, by decide⟩
    have hcond : ¬((applyRules (A ++ (cmtCtx ++ B))).1 = A ++ (cmtCtx ++ B)) := by
      rw [har]
      exact hne
    show (if (applyRules (A ++ (cmtCtx ++ B))).1 = A ++ (cmtCtx ++ B)
        then ((A ++ (cmtCtx ++ B), 0) : List Char × Nat)
        else applyRules (A ++ (cmtCtx ++ B))) = (A ++ (cmtRepl ++ B), 1)
    rw [if_neg hcond, har]

set_option maxRecDepth 1000000 in
/-- Witness for C7 at concrete surrounding text. -/
theorem c7_contextual_rules_win_witness :
    fix_file ("const x = 1;\n".toList ++ (clickCtx ++ "\nconst y = 2;".toList)) =
        ("const x = 1;\n".toList ++ (clickRepl ++ "\nconst y = 2;".toList), 1) ∧
      containsSub clickRepl todoL = false :=
  c7_contextual_rules_win.1 "const x = 1;\n".toList "\nconst y = 2;".toList
    (by decide) (by decide) (by decide) (by decide) (by decide)

theorem containsSub_head_absent (B : List Char) (k0 : Char) (ks : List Char)
    (h : ∀ c ∈ B, (c == k0) = false) : containsSub B (k0 :: ks) = false := by
  induction B with
  | nil => rfl
  | cons c cs ih =>
    simp only [containsSub, Bool.or_eq_false_iff]
    constructor
    · simp only [startsWithL]
      rw [h c (List.mem_cons_self c cs)]
      rfl
    · exact ih (fun x hx => h x (List.mem_cons_of_mem c hx))

theorem sw_eq_isSome (s K : List Char) :
    startsWithL s K = (pOpt (pLit K) s).isSome := by
  induction s generalizing K with
  | nil =>
    cases K with
    | nil => rfl
    | cons k ks => rfl
  | cons c cs ih =>
    cases K with
    | nil => rfl
    | cons k ks =>
      by_cases hc : c == k
      · simp only [startsWithL, hc, Bool.true_and]
        rw [ih ks]
        have hstep : pLit (k :: ks) (c :: cs) = pLit ks cs := by simp [pLit, hc]
        unfold pOpt
        rw [hstep]
      · simp [startsWithL, hc, pOpt, pLit]

theorem containsSub_eq_hasMatch_pLit (s K : List Char) :
    containsSub s K = hasMatchB (pOpt (pLit K)) s := by
  induction s with
  | nil => exact sw_eq_isSome [] K
  | cons c cs ih =>
    simp only [containsSub, hasMatchB, sw_eq_isSome, ih]

theorem pbind_lit {β : Type} (L t : List Char) (k : Unit → List Char → PRes β) :
    pbind (pLit L) k (L ++ t) = k () t := by
  unfold pbind
  rw [pLit_self]

theorem pbind_take1 {β : Type} (p : Char → Bool) (a : List Char) (c : Char)
    (b : List Char) (k : List Char → List Char → PRes β) (ha : a ≠ [])
    (hall : ∀ x ∈ a, p x = true) (hc : p c = false) :
    pbind (pTake1 p) k (a ++ c :: b) = k a (c :: b) := by
  unfold pbind
  have htr := takeRun_all_stop p a b c hall hc
  unfold pTake1
  rw [htr]
  cases a with
  | nil => exact absurd rfl ha
  | cons x xs => rfl

theorem p5_on_catchall (d : List Char) (hd0 : d ≠ [])
    (hdd : ∀ c ∈ d, isDigitC c = true) :
    p5 ("await page.waitForTimeout(".toList ++ (d ++ ")".toList)) =
      .done (repl5 "page".toList d) [] := by
  have hsplit : "await page.waitForTimeout(".toList ++ (d ++ ")".toList) =
      awaitL ++ ("page".toList ++ ('.' :: ("waitForTimeout(".toList ++ (d ++ [')'])))) := by
    have h1 : "await page.waitForTimeout(".toList =
        awaitL ++ ("page".toList ++ ('.' :: "waitForTimeout(".toList)) := by decide
    have h2 : (")".toList : List Char) = [')'] := by decide
    rw [h1, h2]
    simp [List.append_assoc]
  rw [hsplit]
  show pbind (pLit awaitL) (fun _ => pbind (pTake1 isWordC) (fun g1 =>
      pbind (pLit wftL) (fun _ => pbind (pTake1 isDigitC) (fun g2 =>
      pbind (pLit closeParenL) (fun _ => ppure (repl5 g1 g2))))))
      (awaitL ++ ("page".toList ++ ('.' :: ("waitForTimeout(".toList ++ (d ++ [')']))))) =
    .done (repl5 "page".toList d) []
  rw [pbind_lit]
  show pbind (pTake1 isWordC) (fun g1 =>
      pbind (pLit wftL) (fun _ => pbind (pTake1 isDigitC) (fun g2 =>
      pbind (pLit closeParenL) (fun _ => ppure (repl5 g1 g2)))))
      ("page".toList ++ '.' :: ("waitForTimeout(".toList ++ (d ++ [')']))) =
    .done (repl5 "page".toList d) []
  rw [pbind_take1 isWordC "page".toList '.' ("waitForTimeout(".toList ++ (d ++ [')'])) _
    (by decide) (by decide) (by decide)]
  show pbind (pLit wftL) (fun _ => pbind (pTake1 isDigitC) (fun g2 =>
      pbind (pLit closeParenL) (fun _ => ppure (repl5 "page".toList g2))))
      ('.' :: ("waitForTimeout(".toList ++ (d ++ [')']))) =
    .done (repl5 "page".toList d) []
  have hre : ('.' :: ("waitForTimeout(".toList ++ (d ++ [')']))) = wftL ++ (d ++ [')']) := by
    have h1 : wftL = '.' :: "waitForTimeout(".toList := by decide
    rw [h1, List.cons_append]
  rw [hre, pbind_lit]
  show pbind (pTake1 isDigitC) (fun g2 =>
      pbind (pLit closeParenL) (fun _ => ppure (repl5 "page".toList g2)))
      (d ++ [')']) = .done (repl5 "page".toList d) []
  rw [show (d ++ [')'] : List Char) = d ++ ')' :: [] from rfl,
    pbind_take1 isDigitC d ')' [] _ hd0 hdd (by decide)]
  show pbind (pLit closeParenL) (fun _ => ppure (repl5 "page".toList d)) (')' :: []) =
    .done (repl5 "page".toList d) []
  rw [show (')' :: ([] : List Char)) = closeParenL ++ [] by decide, pbind_lit]
  rfl

set_option maxRecDepth 1000000 in
/-- C8: a standalone fixed-duration wait with any nonempty numeric duration
`d` — matched by neither contextual rule — is replaced by rule 5 with the
document-ready wait whose timeout is the original `d` (the duration text is
carried into the replacement verbatim, not hardcoded), prefixed by the
review TODO comment, with failure swallowed, and the change count is one. -/
theorem c8_catchall_preserves_duration (d : List Char) (hd0 : d ≠ [])
    (hdd : ∀ c ∈ d, isDigitC c = true) :
    fix_file ("await page.waitForTimeout(".toList ++ (d ++ ")".toList)) =
        (repl5 "page".toList d, 1) ∧
      containsSub (repl5 "page".toList d) todoL = true ∧
      containsSub (repl5 "page".toList d) d = true := by
  have hdigitsB : ∀ (k0 : Char), isDigitC k0 = false → (')' == k0) = false →
      ∀ c ∈ d ++ ")".toList, (c == k0) = false := by
    intro k0 hk0 hpk c hc
    rcases List.mem_append.mp hc with h | h
    · have hdig := hdd c h
      cases hcc : c == k0 with
      | false => rfl
      | true =>
        have hceq : c = k0 := by simpa using hcc
        rw [hceq] at hdig
        rw [hdig] at hk0
        exact absurd hk0 (by simp)
    · have hceq : c = ')' := by
        have : (")".toList : List Char) = [')'] := by decide
        rw [this] at h
        simpa using h
      rw [hceq]
      exact hpk
  have hBa : containsSub (d ++ ")".toList) awaitL = false := by
    have h1 : awaitL = 'a' :: "wait ".toList := by decide
    rw [h1]
    exact containsSub_head_absent _ _ _ (hdigitsB 'a' (by decide) (by decide))
  have hBc : containsSub (d ++ ")".toList) cmtL = false := by
    have h1 : cmtL = '/' :: "/ Wait for iframe to load".toList := by decide
    rw [h1]
    exact containsSub_head_absent _ _ _ (hdigitsB '/' (by decide) (by decide))
  have hBg : containsSub (d ++ ")".toList) gotoOpenL = false := by
    have h1 : gotoOpenL = '.' :: "goto(".toList := by decide
    rw [h1]
    exact containsSub_head_absent _ _ _ (hdigitsB '.' (by decide) (by decide))
  have hXka : ∀ k, 0 < k → k < awaitL.length →
      startsWithL ("await page.waitForTimeout(".toList ++ (d ++ ")".toList))
        (List.drop k awaitL) = false := by
    intro k hk0 hk
    have hk6 : k < 6 := by
      have hlen : awaitL.length = 6 := by decide
      omega
    apply sw_tail_append _ _ awaitL (by decide) k hk0 hk
    interval_cases k <;> decide
  have hXkc : ∀ k, 0 < k → k < cmtL.length →
      startsWithL ("await page.waitForTimeout(".toList ++ (d ++ ")".toList))
        (List.drop k cmtL) = false := by
    intro k hk0 hk
    have hk26 : k < 26 := by
      have hlen : cmtL.length = 26 := by decide
      omega
    apply sw_tail_append _ _ cmtL (by decide) k hk0 hk
    interval_cases k <;> decide
  have hXkg : ∀ k, 0 < k → k < gotoOpenL.length →
      startsWithL ("await page.waitForTimeout(".toList ++ (d ++ ")".toList))
        (List.drop k gotoOpenL) = false := by
    intro k hk0 hk
    have hk6 : k < 6 := by
      have hlen : gotoOpenL.length = 6 := by decide
      omega
    apply sw_tail_append _ _ gotoOpenL (by decide) k hk0 hk
    interval_cases k <;> decide
  have h1 : hasMatchB (pOpt p1)
      ("await page.waitForTimeout(".toList ++ (d ++ ")".toList)) = false := by
    have := no_match_three_regions p1 stable_p1 awaitL []
      "await page.waitForTimeout(".toList (d ++ ")".toList) p1_sw (by decide)
      hBa hXka (by decide)
    simpa using this
  have h3 : hasMatchB (pOpt p3)
      ("await page.waitForTimeout(".toList ++ (d ++ ")".toList)) = false := by
    have := no_match_three_regions p3 stable_p3 cmtL []
      "await page.waitForTimeout(".toList (d ++ ")".toList) p3_sw (by decide)
      hBc hXkc (by decide)
    simpa using this
  have h4 : hasMatchB (pOpt p4)
      ("await page.waitForTimeout(".toList ++ (d ++ ")".toList)) = false := by
    have := no_match_three_regions p4 stable_p4 awaitL []
      "await page.waitForTimeout(".toList (d ++ ")".toList) p4_sw (by decide)
      hBa hXka (by decide)
    simpa using this
  have hgoto : containsSub ("await page.waitForTimeout(".toList ++ (d ++ ")".toList))
      gotoOpenL = false := by
    rw [containsSub_eq_hasMatch_pLit]
    have := no_match_three_regions (pLit gotoOpenL) (stable_pLit _) gotoOpenL []
      "await page.waitForTimeout(".toList (d ++ ")".toList)
      (fun s v r h => pLit_done_sw _ s v r h) (by decide) hBg hXkg (by decide)
    simpa using this
  have t1 := fix1_id _ h1
  have t2 := fix2_id_of_no_goto _ hgoto
  have t3 := fix3_id _ h3
  have t4 := fix4_id _ h4
  have hm5 : pOpt p5 ("await page.waitForTimeout(".toList ++ (d ++ ")".toList)) =
      some (repl5 "page".toList d, []) := by
    rw [pOpt_eq_some]
    exact p5_on_catchall d hd0 hdd
  have t5 : fix5 ("await page.waitForTimeout(".toList ++ (d ++ ")".toList)) =
      (repl5 "page".toList d, 1) := by
    unfold fix5
    rw [subn_step (pOpt p5) consumes_p5 _ _ [] hm5]
    have h0 : subn (pOpt p5) [] = ([], 0) := rfl
    rw [h0]
    simp
  have har : applyRules ("await page.waitForTimeout(".toList ++ (d ++ ")".toList)) =
      (repl5 "page".toList d, 1) := by
    have hdef : applyRules ("await page.waitForTimeout(".toList ++ (d ++ ")".toList)) =
        ((fix5 (fix4 (fix3 (fix2 (fix1 ("await page.waitForTimeout(".toList ++ (d ++ ")".toList))).1).1).1).1).1,
          (fix1 ("await page.waitForTimeout(".toList ++ (d ++ ")".toList))).2 +
            (fix2 (fix1 ("await page.waitForTimeout(".toList ++ (d ++ ")".toList))).1).2 +
            (fix3 (fix2 (fix1 ("await page.waitForTimeout(".toList ++ (d ++ ")".toList))).1).1).2 +
            (fix4 (fix3 (fix2 (fix1 ("await page.waitForTimeout(".toList ++ (d ++ ")".toList))).1).1).1).2 +
            (fix5 (fix4 (fix3 (fix2 (fix1 ("await page.waitForTimeout(".toList ++ (d ++ ")".toList))).1).1).1).1).2) := rfl
    rw [hdef]
    simp only [t1, t2, t3, t4, t5]
  have hlen5 : (repl5 "page".toList d).length = 155 + d.length := by
    unfold repl5
    simp only [List.length_append]
    have a1 : ("// TODO: Replace timeout with specific element wait\n    await ".toList).length = 62 := by decide
    have a2 : (("page".toList : List Char)).length = 4 := by decide
    have a3 : (".waitForFunction(() => document.readyState === 'complete', \x7b timeout: ".toList).length = 70 := by decide
    have a4 : ((" \x7d).catch(() => \x7b\x7d)".toList : List Char)).length = 19 := by decide
    omega
  have hlenT : ("await page.waitForTimeout(".toList ++ (d ++ ")".toList)).length =
      27 + d.length := by
    simp only [List.length_append]
    have a1 : (("await page.waitForTimeout(".toList : List Char)).length = 26 := by decide
    have a2 : ((")".toList : List Char)).length = 1 := by decide
    omega
  have hne : ¬(repl5 "page".toList d =
      "await page.waitForTimeout(".toList ++ (d ++ ")".toList)) := by
    intro heq
    have hlen := congrArg List.length heq
    rw [hlen5, hlenT] at hlen
    omega
  refine ⟨?_, ?_, ?_⟩
  · have hcond : ¬((applyRules ("await page.waitForTimeout(".toList ++ (d ++ ")".toList))).1 =
        "await page.waitForTimeout(".toList ++ (d ++ ")".toList)) := by
      rw [har]
      exact hne
    show (if (applyRules ("await page.waitForTimeout(".toList ++ (d ++ ")".toList))).1 =
          "await page.waitForTimeout(".toList ++ (d ++ ")".toList)
        then (("await page.waitForTimeout(".toList ++ (d ++ ")".toList), 0) : List Char × Nat)
        else applyRules ("await page.waitForTimeout(".toList ++ (d ++ ")".toList))) =
      (repl5 "page".toList d, 1)
    rw [if_neg hcond, har]
  · unfold repl5
    exact containsSub_append_left _ _ _ (containsSub_append_left _ _ _
      (containsSub_append_left _ _ _ (containsSub_append_left _ _ _ (by decide))))
  · unfold repl5
    apply containsSub_append_left
    have hsw : startsWithL
        (List.drop ("// TODO: Replace timeout with specific element wait\n    await ".toList ++
            "page".toList ++
            ".waitForFunction(() => document.readyState === 'complete', \x7b timeout: ".toList).length
          (("// TODO: Replace timeout with specific element wait\n    await ".toList ++
              "page".toList ++
              ".waitForFunction(() => document.readyState === 'complete', \x7b timeout: ".toList) ++ d))
        d = true := by
      rw [List.drop_left]
      exact (startsWithL_iff d d).mpr (List.prefix_refl d)
    exact containsSub_of_sw_drop _ _ _ hsw

set_option maxRecDepth 1000000 in
/-- Witness for C8 at a concrete duration. -/
theorem c8_catchall_preserves_duration_witness :
    fix_file ("await page.waitForTimeout(".toList ++ ("1000".toList ++ ")".toList)) =
        (repl5 "page".toList "1000".toList, 1) ∧
      containsSub (repl5 "page".toList "1000".toList) todoL = true ∧
      containsSub (repl5 "page".toList "1000".toList) "1000".toList = true :=
  c8_catchall_preserves_duration "1000".toList (by decide) (by decide)

end FixWaits
